import Mathlib

/-!
Verification development for the LTL model-checking core of the checkr
repository.  The Rust sources are embedded shallowly: `BTreeSet`s become
sorted duplicate-free lists (with an explicit comparator mirroring the
derived `Ord` instances), `BTreeMap`s become association lists, fallible
code returns `Except`/`Option`, and the work-list loops of the searches
take an explicit fuel argument (with `none` meaning the fuel ran out).
The two in-tree generations of `LTLConjunction` (a struct with an element
set in `vwaa.rs`, an enum with a distinguished `TT` in `gba.rs`) are
reconciled into the enum form, identifying the struct's empty element set
with `TT`.
-/

set_option maxHeartbeats 1600000

/-! ## Ordered-set kit (Rust `BTreeSet`/`BTreeMap` as sorted lists) -/

/-- Insert `x` into `l` in front of the first element that is not
smaller according to `cmp`. -/
def insertPos {α : Type} (cmp : α → α → Ordering) (x : α) : List α → List α
  | [] => [x]
  | y :: ys =>
    match cmp x y with
    | Ordering.lt => x :: y :: ys
    | _ => y :: insertPos cmp x ys

/-- `BTreeSet::insert`: add `x` unless an equal element is present. -/
def setAdd {α : Type} [DecidableEq α] (cmp : α → α → Ordering) (l : List α) (x : α) : List α :=
  if x ∈ l then l else insertPos cmp x l

/-- `BTreeSet::extend` (the `add_many` helper of `traits.rs`). -/
def setUnion {α : Type} [DecidableEq α] (cmp : α → α → Ordering) (l1 l2 : List α) : List α :=
  l2.foldl (setAdd cmp) l1

/-- `collect::<BTreeSet<_>>()` from an iterator. -/
def setCollect {α : Type} [DecidableEq α] (cmp : α → α → Ordering) (l : List α) : List α :=
  setUnion cmp [] l

theorem mem_insertPos {α : Type} (cmp : α → α → Ordering) (x z : α) :
    ∀ l : List α, z ∈ insertPos cmp x l ↔ z = x ∨ z ∈ l := by
  intro l
  induction l with
  | nil => simp [insertPos]
  | cons y ys ih =>
    simp only [insertPos]
    cases cmp x y with
    | lt => simp [List.mem_cons]
    | eq => simp [List.mem_cons, ih]; tauto
    | gt => simp [List.mem_cons, ih]; tauto

theorem mem_setAdd {α : Type} [DecidableEq α] (cmp : α → α → Ordering) (l : List α) (x z : α) :
    z ∈ setAdd cmp l x ↔ z = x ∨ z ∈ l := by
  unfold setAdd
  by_cases hx : x ∈ l
  · simp only [if_pos hx]
    constructor
    · tauto
    · rintro (rfl | h)
      · exact hx
      · exact h
  · simp [if_neg hx, mem_insertPos]

theorem mem_setUnion {α : Type} [DecidableEq α] (cmp : α → α → Ordering) (l1 l2 : List α) (z : α) :
    z ∈ setUnion cmp l1 l2 ↔ z ∈ l1 ∨ z ∈ l2 := by
  induction l2 generalizing l1 with
  | nil => simp [setUnion]
  | cons y ys ih =>
    simp only [setUnion, List.foldl_cons] at *
    rw [ih (setAdd cmp l1 y), mem_setAdd]
    simp [List.mem_cons]
    tauto

theorem mem_setCollect {α : Type} [DecidableEq α] (cmp : α → α → Ordering) (l : List α) (z : α) :
    z ∈ setCollect cmp l ↔ z ∈ l := by
  unfold setCollect
  rw [mem_setUnion]
  simp

/-- Lexicographic list comparison, as for Rust `Vec`/`BTreeSet` `Ord`. -/
def cmpList {α : Type} (cmp : α → α → Ordering) : List α → List α → Ordering
  | [], [] => Ordering.eq
  | [], _ :: _ => Ordering.lt
  | _ :: _, [] => Ordering.gt
  | x :: xs, y :: ys => (cmp x y).then (cmpList cmp xs ys)

/-- Lexicographic pair comparison, as for Rust tuple/struct derived `Ord`. -/
def cmpPair {α β : Type} (ca : α → α → Ordering) (cb : β → β → Ordering)
    (p q : α × β) : Ordering :=
  (ca p.1 q.1).then (cb p.2 q.2)

/-! ## Expression ASTs (`ast.rs` via `interpreter.rs`) and their evaluator -/

/-- Arithmetic operators (`AOp`). -/
inductive AOp : Type
  | plus | minus | times | divide | pow
deriving DecidableEq, Repr

/-- Relational operators (`RelOp`). -/
inductive RelOp : Type
  | eq | ne | gt | ge | lt | le
deriving DecidableEq, Repr

/-- Logic operators (`LogicOp`); `land`/`lor` are the non-short-circuit forms. -/
inductive LogicOp : Type
  | and | land | or | lor
deriving DecidableEq, Repr

mutual
/-- Arithmetic expressions (`AExpr`). -/
inductive AExpr : Type
  | number (n : Int)
  | reference (t : Target)
  | binary (l : AExpr) (op : AOp) (r : AExpr)
  | minus (e : AExpr)
deriving DecidableEq, Repr

/-- Assignment/reference targets (`Target`). -/
inductive Target : Type
  | variable (x : String)
  | array (a : String) (idx : AExpr)
deriving DecidableEq, Repr
end

/-- Boolean expressions (`BExpr`). -/
inductive BExpr : Type
  | bool (b : Bool)
  | rel (l : AExpr) (op : RelOp) (r : AExpr)
  | logic (l : BExpr) (op : LogicOp) (r : BExpr)
  | not (e : BExpr)
deriving DecidableEq, Repr

def AOp.tag : AOp → Nat
  | .plus => 0 | .minus => 1 | .times => 2 | .divide => 3 | .pow => 4

def RelOp.tag : RelOp → Nat
  | .eq => 0 | .ne => 1 | .gt => 2 | .ge => 3 | .lt => 4 | .le => 5

def LogicOp.tag : LogicOp → Nat
  | .and => 0 | .land => 1 | .or => 2 | .lor => 3

def cmpAOp (a b : AOp) : Ordering := compare a.tag b.tag

def cmpRelOp (a b : RelOp) : Ordering := compare a.tag b.tag

def cmpLogicOp (a b : LogicOp) : Ordering := compare a.tag b.tag

mutual
/-- Structural comparison mirroring Rust's derived `Ord` for `AExpr`. -/
def cmpAExpr : AExpr → AExpr → Ordering
  | .number n, .number m => compare n m
  | .number _, _ => Ordering.lt
  | _, .number _ => Ordering.gt
  | .reference t, .reference u => cmpTarget t u
  | .reference _, _ => Ordering.lt
  | _, .reference _ => Ordering.gt
  | .binary l1 o1 r1, .binary l2 o2 r2 =>
    ((cmpAExpr l1 l2).then (cmpAOp o1 o2)).then (cmpAExpr r1 r2)
  | .binary _ _ _, _ => Ordering.lt
  | _, .binary _ _ _ => Ordering.gt
  | .minus a, .minus b => cmpAExpr a b

/-- Structural comparison mirroring Rust's derived `Ord` for `Target`. -/
def cmpTarget : Target → Target → Ordering
  | .variable x, .variable y => compare x y
  | .variable _, _ => Ordering.lt
  | _, .variable _ => Ordering.gt
  | .array a i, .array b j => (compare a b).then (cmpAExpr i j)
end

/-- Structural comparison mirroring Rust's derived `Ord` for `BExpr`. -/
def cmpBExpr : BExpr → BExpr → Ordering
  | .bool a, .bool b => compare a b
  | .bool _, _ => Ordering.lt
  | _, .bool _ => Ordering.gt
  | .rel l1 o1 r1, .rel l2 o2 r2 =>
    ((cmpAExpr l1 l2).then (cmpRelOp o1 o2)).then (cmpAExpr r1 r2)
  | .rel _ _ _, _ => Ordering.lt
  | _, .rel _ _ _ => Ordering.gt
  | .logic l1 o1 r1, .logic l2 o2 r2 =>
    ((cmpBExpr l1 l2).then (cmpLogicOp o1 o2)).then (cmpBExpr r1 r2)
  | .logic _ _ _, _ => Ordering.lt
  | _, .logic _ _ _ => Ordering.gt
  | .not a, .not b => cmpBExpr a b

/-- Evaluation errors (`InterpreterError`). -/
inductive InterpreterError : Type
  | divisionByZero
  | negativeExponent
  | variableNotFound (name : String)
  | arrayNotFound (name : String)
  | indexOutOfBound (name : String) (index : Int)
  | noProgression
  | arithmeticOverflow
deriving DecidableEq, Repr

/-- The concrete memory (`InterpreterMemory = Memory<i64, Vec<i64>>`),
with the `BTreeMap`s represented as association lists. -/
structure Memory : Type where
  vars : List (String × Int)
  arrays : List (String × List Int)
deriving DecidableEq, Repr

def Memory.getVar (m : Memory) (x : String) : Option Int :=
  (m.vars.find? (fun p => p.1 = x)).map (·.2)

def Memory.getArr (m : Memory) (a : String) : Option (List Int) :=
  (m.arrays.find? (fun p => p.1 = a)).map (·.2)

def i64Min : Int := -(2 ^ 63)

def i64Max : Int := 2 ^ 63 - 1

/-- Two's-complement wrapping into the i64 range: Rust's raw `+`, `-`
and unary `-` wrap like this in the release profile modelled here (the
debug profile would panic on overflow instead). -/
def wrap64 (a : Int) : Int := (a + 2 ^ 63) % 2 ^ 64 - 2 ^ 63

/-- `AOp::semantic`.  `+`/`-` are the raw i64 operations (wrapping, see
`wrap64`); `*` is `checked_mul` and `^` is `checked_pow` after the
exponent's `as u32` cast (truncation modulo `2^32`), overflow being an
error; division by zero and negative exponents are errors; and the
division `i64::MIN / -1` overflows `l / r` itself, a panic (`none`) in
every build profile. -/
def AOp.semantic : AOp → Int → Int → Option (Except InterpreterError Int)
  | .plus, l, r => some (Except.ok (wrap64 (l + r)))
  | .minus, l, r => some (Except.ok (wrap64 (l - r)))
  | .times, l, r =>
    if i64Min ≤ l * r ∧ l * r ≤ i64Max then some (Except.ok (l * r))
    else some (Except.error InterpreterError.arithmeticOverflow)
  | .divide, l, r =>
    if r ≠ 0 then
      if l = i64Min ∧ r = -1 then none
      else some (Except.ok (Int.tdiv l r))
    else some (Except.error InterpreterError.divisionByZero)
  | .pow, l, r =>
    if r ≥ 0 then
      if i64Min ≤ l ^ (r % 2 ^ 32).toNat ∧ l ^ (r % 2 ^ 32).toNat ≤ i64Max then
        some (Except.ok (l ^ (r % 2 ^ 32).toNat))
      else some (Except.error InterpreterError.arithmeticOverflow)
    else some (Except.error InterpreterError.negativeExponent)

mutual
/-- `AExpr::semantics` from `interpreter.rs`: evaluation can return a
value, fail with a recoverable `InterpreterError`, or panic (`none`,
propagated from an arithmetic operation); unary minus wraps like the
release-profile `-`. -/
def AExpr.semantics : AExpr → Memory → Option (Except InterpreterError Int)
  | .number n, _ => some (Except.ok n)
  | .reference (Target.variable x), m =>
    match m.getVar x with
    | some v => some (Except.ok v)
    | none => some (Except.error (InterpreterError.variableNotFound x))
  | .reference (Target.array a idx), m =>
    match m.getArr a with
    | none => some (Except.error (InterpreterError.arrayNotFound a))
    | some data =>
      match idx.semantics m with
      | none => none
      | some (Except.error e) => some (Except.error e)
      | some (Except.ok i) =>
        match data.get? i.toNat with
        | some v =>
          if 0 ≤ i then some (Except.ok v)
          else some (Except.error (InterpreterError.indexOutOfBound a i))
        | none => some (Except.error (InterpreterError.indexOutOfBound a i))
  | .binary l op r, m =>
    match l.semantics m with
    | none => none
    | some (Except.error e) => some (Except.error e)
    | some (Except.ok lv) =>
      match r.semantics m with
      | none => none
      | some (Except.error e) => some (Except.error e)
      | some (Except.ok rv) => op.semantic lv rv
  | .minus e, m =>
    match e.semantics m with
    | none => none
    | some (Except.error err) => some (Except.error err)
    | some (Except.ok v) => some (Except.ok (wrap64 (-v)))
end

def RelOp.semantic : RelOp → Int → Int → Bool
  | .eq, l, r => l = r
  | .ne, l, r => l ≠ r
  | .gt, l, r => l > r
  | .ge, l, r => l ≥ r
  | .lt, l, r => l < r
  | .le, l, r => l ≤ r

/-- `LogicOp::semantic`: `and`/`or` short-circuit (the right operand's
outcome, panic included, is discarded when the left decides), `land`/
`lor` evaluate both operands before combining. -/
def LogicOp.semantic :
    LogicOp → Bool → Option (Except InterpreterError Bool) →
      Option (Except InterpreterError Bool)
  | .and, l, r => if l then r else some (Except.ok false)
  | .land, l, r =>
    match r with
    | none => none
    | some (Except.error e) => some (Except.error e)
    | some (Except.ok rv) => some (Except.ok (l && rv))
  | .or, l, r => if l then some (Except.ok true) else r
  | .lor, l, r =>
    match r with
    | none => none
    | some (Except.error e) => some (Except.error e)
    | some (Except.ok rv) => some (Except.ok (l || rv))

/-- `BExpr::semantics` from `interpreter.rs`, propagating panics. -/
def BExpr.semantics : BExpr → Memory → Option (Except InterpreterError Bool)
  | .bool b, _ => some (Except.ok b)
  | .rel l op r, m =>
    match l.semantics m with
    | none => none
    | some (Except.error e) => some (Except.error e)
    | some (Except.ok lv) =>
      match r.semantics m with
      | none => none
      | some (Except.error e) => some (Except.error e)
      | some (Except.ok rv) => some (Except.ok (op.semantic lv rv))
  | .logic l op r, m =>
    match l.semantics m with
    | none => none
    | some (Except.error e) => some (Except.error e)
    | some (Except.ok lv) => op.semantic lv (r.semantics m)
  | .not e, m =>
    match e.semantics m with
    | none => none
    | some (Except.error err) => some (Except.error err)
    | some (Except.ok v) => some (Except.ok (!v))

/-! ## Positive-normal-form LTL (`ltl.rs`) and symbol conjunctions (`vwaa.rs`) -/

/-- `NegativeNormalLTL`: positive-normal-form formulas. -/
inductive NegativeNormalLTL : Type
  | true
  | false
  | atomic (b : BExpr)
  | negAtomic (b : BExpr)
  | and (f1 f2 : NegativeNormalLTL)
  | or (f1 f2 : NegativeNormalLTL)
  | next (f : NegativeNormalLTL)
  | until (f1 f2 : NegativeNormalLTL)
  | release (f1 f2 : NegativeNormalLTL)
deriving DecidableEq, Repr

/-- Edge-label symbols (`Symbol` in `vwaa.rs`): an atomic proposition or
its negation. -/
inductive MSymbol : Type
  | atomic (b : BExpr)
  | negAtomic (b : BExpr)
deriving DecidableEq, Repr

/-- `SymbolConjunction`: `TT` or a set of symbols read conjunctively. -/
inductive SymbolConjunction : Type
  | TT
  | conjunction (symset : List MSymbol)
deriving DecidableEq, Repr

/-- `LTLConjunction`: `TT` or a set of formulas read conjunctively
(the enum form of `gba.rs`, with the struct form's empty element set
identified with `TT`). -/
inductive LTLConjunction : Type
  | TT
  | conjunction (set : List NegativeNormalLTL)
deriving DecidableEq, Repr

/-- Structural comparison mirroring Rust's derived `Ord` for `Symbol`. -/
def cmpSymbol : MSymbol → MSymbol → Ordering
  | .atomic a, .atomic b => cmpBExpr a b
  | .atomic _, .negAtomic _ => Ordering.lt
  | .negAtomic _, .atomic _ => Ordering.gt
  | .negAtomic a, .negAtomic b => cmpBExpr a b

def NegativeNormalLTL.tag : NegativeNormalLTL → Nat
  | .true => 0 | .false => 1 | .atomic _ => 2 | .negAtomic _ => 3
  | .and _ _ => 4 | .or _ _ => 5 | .next _ => 6 | .until _ _ => 7 | .release _ _ => 8

/-- Structural comparison mirroring Rust's derived `Ord` for
`NegativeNormalLTL`. -/
def cmpNNLTL : NegativeNormalLTL → NegativeNormalLTL → Ordering
  | .atomic a, .atomic b => cmpBExpr a b
  | .negAtomic a, .negAtomic b => cmpBExpr a b
  | .and a1 a2, .and b1 b2 => (cmpNNLTL a1 b1).then (cmpNNLTL a2 b2)
  | .or a1 a2, .or b1 b2 => (cmpNNLTL a1 b1).then (cmpNNLTL a2 b2)
  | .next a, .next b => cmpNNLTL a b
  | .until a1 a2, .until b1 b2 => (cmpNNLTL a1 b1).then (cmpNNLTL a2 b2)
  | .release a1 a2, .release b1 b2 => (cmpNNLTL a1 b1).then (cmpNNLTL a2 b2)
  | f, g => compare f.tag g.tag

/-- Comparison for `SymbolConjunction` (`TT` before `Conjunction`). -/
def cmpSymCon : SymbolConjunction → SymbolConjunction → Ordering
  | .TT, .TT => Ordering.eq
  | .TT, .conjunction _ => Ordering.lt
  | .conjunction _, .TT => Ordering.gt
  | .conjunction a, .conjunction b => cmpList cmpSymbol a b

/-- Comparison for `LTLConjunction` (`TT` before `Conjunction`). -/
def cmpLTLCon : LTLConjunction → LTLConjunction → Ordering
  | .TT, .TT => Ordering.eq
  | .TT, .conjunction _ => Ordering.lt
  | .conjunction _, .TT => Ordering.gt
  | .conjunction a, .conjunction b => cmpList cmpNNLTL a b

/-- `Conjuct for SymbolConjunction` (`vwaa.rs` lines 59-71): set union
with `TT` as identity. -/
def SymbolConjunction.conjuct : SymbolConjunction → SymbolConjunction → SymbolConjunction
  | .TT, other => other
  | .conjunction set, .TT => .conjunction set
  | .conjunction set, .conjunction set2 => .conjunction (setUnion cmpSymbol set set2)

/-- The empty LTL conjunction (`LTLConjunction::tt`). -/
def LTLConjunction.tt : LTLConjunction := .TT

/-- `LTLConjunction::new`: drop `True` conjuncts; an empty conjunction is
the `TT` of the enum form. -/
def LTLConjunction.new (elements : List NegativeNormalLTL) : LTLConjunction :=
  match elements.filter (fun e => e ≠ NegativeNormalLTL.true) with
  | [] => .TT
  | l => .conjunction (setCollect cmpNNLTL l)

/-- `Conjuct for LTLConjunction`: set union with `TT` as identity. -/
def LTLConjunction.conjuct : LTLConjunction → LTLConjunction → LTLConjunction
  | .TT, other => other
  | .conjunction set, .TT => .conjunction set
  | .conjunction set, .conjunction set2 => .conjunction (setUnion cmpNNLTL set set2)

/-- VWAA transition results: a symbol conjunction and a target conjunction. -/
abbrev VWAATransitionResult : Type := SymbolConjunction × LTLConjunction

def cmpVWAATransitionResult : VWAATransitionResult → VWAATransitionResult → Ordering :=
  cmpPair cmpSymCon cmpLTLCon

/-- The `circle_x` operator of `vwaa.rs`: pointwise conjunction of the
two transition-result sets. -/
def circle_x (j1 j2 : List VWAATransitionResult) : List VWAATransitionResult :=
  j1.foldl (fun res p1 =>
    j2.foldl (fun res p2 =>
      setAdd cmpVWAATransitionResult res (p1.1.conjuct p2.1, p1.2.conjuct p2.2)) res) []

/-- The `bar` expansion of `vwaa.rs`: conjunctions and disjunctions are
unfolded into the set of their non-`And`/`Or` leaves (with the `And` case
empty if either side's expansion is empty, as in the nested loops). -/
def bar : NegativeNormalLTL → List NegativeNormalLTL
  | .and f1 f2 =>
    let b1 := bar f1
    let b2 := bar f2
    if b1 = [] ∨ b2 = [] then [] else setUnion cmpNNLTL (setCollect cmpNNLTL b1) b2
  | .or f1 f2 => setUnion cmpNNLTL (setCollect cmpNNLTL (bar f1)) (bar f2)
  | f => [f]

/-- `find_delta` of `vwaa.rs`: the VWAA transition function. -/
def find_delta : NegativeNormalLTL → List VWAATransitionResult
  | .true => [(SymbolConjunction.TT, LTLConjunction.tt)]
  | .false => []
  | .atomic p => [(SymbolConjunction.conjunction [MSymbol.atomic p], LTLConjunction.tt)]
  | .negAtomic p => [(SymbolConjunction.conjunction [MSymbol.negAtomic p], LTLConjunction.tt)]
  | .next f =>
    setCollect cmpVWAATransitionResult
      ((bar f).map (fun e => (SymbolConjunction.TT, LTLConjunction.new [e])))
  | .until f1 f2 =>
    let operand : List VWAATransitionResult :=
      [(SymbolConjunction.TT, LTLConjunction.new [NegativeNormalLTL.until f1 f2])]
    setUnion cmpVWAATransitionResult
      (setCollect cmpVWAATransitionResult (find_delta f2))
      (circle_x (find_delta f1) operand)
  | .release f1 f2 =>
    let union :=
      setAdd cmpVWAATransitionResult
        (setCollect cmpVWAATransitionResult (find_delta f1))
        (SymbolConjunction.TT, LTLConjunction.new [NegativeNormalLTL.release f1 f2])
    circle_x (find_delta f2) union
  | .or f1 f2 =>
    setUnion cmpVWAATransitionResult
      (setCollect cmpVWAATransitionResult (find_delta f1))
      (find_delta f2)
  | .and f1 f2 => circle_x (find_delta f1) (find_delta f2)

/-- `temporal_subformulae` of `ltl.rs`. -/
def temporal_subformulae : NegativeNormalLTL → List NegativeNormalLTL
  | .and f1 f2 =>
    setUnion cmpNNLTL (setCollect cmpNNLTL (temporal_subformulae f1)) (temporal_subformulae f2)
  | .or f1 f2 =>
    setUnion cmpNNLTL (setCollect cmpNNLTL (temporal_subformulae f1)) (temporal_subformulae f2)
  | .next f =>
    setAdd cmpNNLTL (setCollect cmpNNLTL (temporal_subformulae f)) (NegativeNormalLTL.next f)
  | .until f1 f2 =>
    setAdd cmpNNLTL
      (setUnion cmpNNLTL (setCollect cmpNNLTL (temporal_subformulae f1)) (temporal_subformulae f2))
      (NegativeNormalLTL.until f1 f2)
  | .release f1 f2 =>
    setAdd cmpNNLTL
      (setUnion cmpNNLTL (setCollect cmpNNLTL (temporal_subformulae f1)) (temporal_subformulae f2))
      (NegativeNormalLTL.release f1 f2)
  | f => [f]

/-- `until_subformulae` of `ltl.rs`. -/
def until_subformulae : NegativeNormalLTL → List NegativeNormalLTL
  | .and f1 f2 =>
    setUnion cmpNNLTL (setCollect cmpNNLTL (until_subformulae f1)) (until_subformulae f2)
  | .or f1 f2 =>
    setUnion cmpNNLTL (setCollect cmpNNLTL (until_subformulae f1)) (until_subformulae f2)
  | .next f => until_subformulae f
  | .until f1 f2 =>
    setAdd cmpNNLTL
      (setUnion cmpNNLTL (setCollect cmpNNLTL (until_subformulae f1)) (until_subformulae f2))
      (NegativeNormalLTL.until f1 f2)
  | .release f1 f2 =>
    setUnion cmpNNLTL (setCollect cmpNNLTL (until_subformulae f1)) (until_subformulae f2)
  | _ => []

/-- The very-weak alternating automaton (`VWAA`). -/
structure VWAA : Type where
  states : List NegativeNormalLTL
  delta : List (NegativeNormalLTL × List VWAATransitionResult)
  initial_states : List NegativeNormalLTL
  final_states : List NegativeNormalLTL
deriving DecidableEq, Repr

/-- `VWAA::from_ltl`. -/
def VWAA.from_ltl (formula : NegativeNormalLTL) : VWAA :=
  let states := temporal_subformulae formula
  { states := states
    delta := states.map (fun s => (s, find_delta s))
    initial_states := bar formula
    final_states := until_subformulae formula }

/-! ## Edge-label interpretation (`symcon_to_bexp` of `nested_dfs.rs`) -/

def MSymbol.toBexp : MSymbol → BExpr
  | .atomic b => b
  | .negAtomic b => BExpr.not b

/-- `symcon_to_bexp`, with the `reduce(...).unwrap()` made explicit:
`none` is the panic on an empty conjunction. -/
def symconToBexp? : SymbolConjunction → Option BExpr
  | .TT => some (BExpr.bool Bool.true)
  | .conjunction symset =>
    match symset.map MSymbol.toBexp with
    | [] => none
    | b :: bs => some (bs.foldl (fun acc e => BExpr.logic acc LogicOp.and e) b)

/-- Total wrapper for `symcon_to_bexp`; the default is never reached on
the symbol conjunctions the pipeline produces. -/
def symconToBexp (sc : SymbolConjunction) : BExpr :=
  (symconToBexp? sc).getD (BExpr.bool Bool.true)

/-- Well-formedness of a symbol conjunction: the `Conjunction` variant
holds a non-empty symbol set. -/
def SymbolConjunction.wf : SymbolConjunction → Bool
  | .TT => Bool.true
  | .conjunction l => !l.isEmpty

/-! ## Membership characterizations for the set operations -/

theorem mem_foldl_setAdd {α β : Type} [DecidableEq α] (cmp : α → α → Ordering) (f : β → α)
    (l : List β) (acc : List α) (z : α) :
    z ∈ l.foldl (fun res b => setAdd cmp res (f b)) acc ↔ z ∈ acc ∨ ∃ b ∈ l, z = f b := by
  induction l generalizing acc with
  | nil => simp
  | cons x xs ih =>
    simp only [List.foldl_cons]
    rw [ih, mem_setAdd]
    simp [List.mem_cons]
    tauto

theorem mem_circle_x (j1 j2 : List VWAATransitionResult) (z : VWAATransitionResult) :
    z ∈ circle_x j1 j2 ↔
      ∃ p1 ∈ j1, ∃ p2 ∈ j2, z = (p1.1.conjuct p2.1, p1.2.conjuct p2.2) := by
  unfold circle_x
  suffices h : ∀ acc : List VWAATransitionResult,
      z ∈ j1.foldl (fun res p1 =>
          j2.foldl (fun res p2 =>
            setAdd cmpVWAATransitionResult res (p1.1.conjuct p2.1, p1.2.conjuct p2.2)) res) acc ↔
        z ∈ acc ∨ ∃ p1 ∈ j1, ∃ p2 ∈ j2, z = (p1.1.conjuct p2.1, p1.2.conjuct p2.2) by
    rw [h []]
    simp
  intro acc
  induction j1 generalizing acc with
  | nil => simp
  | cons x xs ih =>
    simp only [List.foldl_cons]
    rw [ih]
    rw [mem_foldl_setAdd cmpVWAATransitionResult
      (fun p2 => (x.1.conjuct p2.1, x.2.conjuct p2.2)) j2 acc z]
    constructor
    · rintro ((h | ⟨b, hb, rfl⟩) | ⟨p1, hp1, p2, hp2, rfl⟩)
      · exact Or.inl h
      · exact Or.inr ⟨x, List.mem_cons_self x xs, b, hb, rfl⟩
      · exact Or.inr ⟨p1, List.mem_cons_of_mem x hp1, p2, hp2, rfl⟩
    · rintro (h | ⟨p1, hp1, p2, hp2, rfl⟩)
      · exact Or.inl (Or.inl h)
      · rcases List.mem_cons.mp hp1 with h1 | h1
        · subst h1
          exact Or.inl (Or.inr ⟨p2, hp2, rfl⟩)
        · exact Or.inr ⟨p1, h1, p2, hp2, rfl⟩

/-- C7: `find_delta` satisfies the defining equations of the VWAA
transition function: `δ(Until(f,g)) = δ(g) ∪ (δ(f) ⊗ {(TT, {Until(f,g)})})`
and `δ(Release(f,g)) = δ(g) ⊗ (δ(f) ∪ {(TT, {Release(f,g)})})`, where `⊗`
is the pointwise conjunction of pairs computed by `circle_x` and the two
conjunctions are set union with `TT` as identity. -/
theorem find_delta_until_release_equations (f g : NegativeNormalLTL)
    (z : VWAATransitionResult) :
    (z ∈ find_delta (NegativeNormalLTL.until f g) ↔
      z ∈ find_delta g ∨
        ∃ p ∈ find_delta f,
          z = (p.1.conjuct SymbolConjunction.TT,
               p.2.conjuct (LTLConjunction.new [NegativeNormalLTL.until f g]))) ∧
    (z ∈ find_delta (NegativeNormalLTL.release f g) ↔
      ∃ p1 ∈ find_delta g,
        ∃ p2, (p2 ∈ find_delta f ∨
                p2 = (SymbolConjunction.TT,
                      LTLConjunction.new [NegativeNormalLTL.release f g])) ∧
          z = (p1.1.conjuct p2.1, p1.2.conjuct p2.2)) := by
  constructor
  · rw [show find_delta (NegativeNormalLTL.until f g) =
      setUnion cmpVWAATransitionResult
        (setCollect cmpVWAATransitionResult (find_delta g))
        (circle_x (find_delta f)
          [(SymbolConjunction.TT, LTLConjunction.new [NegativeNormalLTL.until f g])])
      from rfl]
    rw [mem_setUnion, mem_setCollect, mem_circle_x]
    simp
  · rw [show find_delta (NegativeNormalLTL.release f g) =
      circle_x (find_delta g)
        (setAdd cmpVWAATransitionResult
          (setCollect cmpVWAATransitionResult (find_delta f))
          (SymbolConjunction.TT, LTLConjunction.new [NegativeNormalLTL.release f g]))
      from rfl]
    rw [mem_circle_x]
    constructor
    · rintro ⟨p1, hp1, p2, hp2, rfl⟩
      rw [mem_setAdd, mem_setCollect] at hp2
      exact ⟨p1, hp1, p2, Or.symm hp2, rfl⟩
    · rintro ⟨p1, hp1, p2, hp2, rfl⟩
      refine ⟨p1, hp1, p2, ?_, rfl⟩
      rw [mem_setAdd, mem_setCollect]
      exact Or.symm hp2

/-! ## The generalized Büchi automaton builder (`gba.rs`) -/

/-- GBA transition-result pairs (same data as `VWAATransitionResult`). -/
abbrev GBATransitionResult : Type := SymbolConjunction × LTLConjunction

/-- `GBATransition(source, action, target)`. -/
structure GBATransition : Type where
  source : LTLConjunction
  action : SymbolConjunction
  target : LTLConjunction
deriving DecidableEq, Repr

/-- Field-lexicographic comparison mirroring the derived `Ord`. -/
def cmpGBATransition (a b : GBATransition) : Ordering :=
  ((cmpLTLCon a.source b.source).then (cmpSymCon a.action b.action)).then
    (cmpLTLCon a.target b.target)

/-- The generalized Büchi automaton.  In the source `states` and `delta`
are hash containers; the lists record one iteration order of them. -/
structure GBA : Type where
  states : List LTLConjunction
  delta : List (LTLConjunction × List GBATransitionResult)
  initial_state : LTLConjunction
  accepting_transitions : List (List GBATransition)
deriving DecidableEq, Repr

/-- `Subsettable for SymbolConjunction`: semantic implication; `TT` is
implied by everything, and a conjunction implies another iff it contains
the other's symbols. -/
def SymbolConjunction.is_subset : SymbolConjunction → SymbolConjunction → Bool
  | _, .TT => Bool.true
  | .TT, .conjunction _ => Bool.false
  | .conjunction selfset, .conjunction otherset => otherset.all (fun x => x ∈ selfset)

/-- `Subsettable for LTLConjunction`: element-set inclusion, `TT` is the
empty conjunction. -/
def LTLConjunction.is_subset : LTLConjunction → LTLConjunction → Bool
  | s, .TT => s = LTLConjunction.TT
  | .TT, .conjunction _ => Bool.true
  | .conjunction selfset, .conjunction otherset => selfset.all (fun x => x ∈ otherset)

/-- `Contains for LTLConjunction`. -/
def LTLConjunction.containsF : LTLConjunction → NegativeNormalLTL → Bool
  | .TT, _ => Bool.false
  | .conjunction set, item => item ∈ set

/-- `ltl_power_set`: all conjunctions over the non-`True`/`False` states,
plus the explicit `TT`. -/
def ltl_power_set (set : List NegativeNormalLTL) : List LTLConjunction :=
  let rc_set := set.filter
    (fun e => e ≠ NegativeNormalLTL.true ∧ e ≠ NegativeNormalLTL.false)
  setAdd cmpLTLCon
    (rc_set.foldl
      (fun acc elem =>
        setUnion cmpLTLCon acc
          (acc.map (fun e => e.conjuct (LTLConjunction.conjunction [elem]))))
      [LTLConjunction.conjunction []])
    LTLConjunction.TT

/-- Lookup in the VWAA transition map; indexing a missing key panics in
the source, here it yields the empty transition set. -/
def deltaLookup (delta : List (NegativeNormalLTL × List VWAATransitionResult))
    (f : NegativeNormalLTL) : List VWAATransitionResult :=
  ((delta.find? (fun p => p.1 = f)).map (·.2)).getD []

/-- One entry of `delta2prime` in `GBA::from_vwaa`: the lifted transition
set of a power-set state. -/
def liftedDeltaEntry (delta : List (NegativeNormalLTL × List VWAATransitionResult)) :
    LTLConjunction → List GBATransitionResult
  | .TT => setCollect cmpVWAATransitionResult (deltaLookup delta NegativeNormalLTL.true)
  | .conjunction set =>
    match set.map (deltaLookup delta) with
    | [] => [(SymbolConjunction.TT, LTLConjunction.conjunction [NegativeNormalLTL.false])]
    | d :: ds => setCollect cmpVWAATransitionResult (ds.foldl circle_x d)

/-- The breadth-first walk inside `get_reachable`. -/
def getReachableBfs (delta : List (LTLConjunction × List GBATransitionResult)) :
    Nat → List LTLConjunction → List LTLConjunction → List LTLConjunction
  | 0, _, visited => visited
  | _ + 1, [], visited => visited
  | fuel + 1, current :: rest, visited =>
    if current ∈ visited then getReachableBfs delta fuel rest visited
    else
      let trans := ((delta.find? (fun p => p.1 = current)).map (·.2)).getD []
      getReachableBfs delta fuel (rest ++ trans.map (·.2)) (visited ++ [current])

/-- `get_reachable`: restrict `delta` to the states visited by a
breadth-first search from `initial`.  The fuel covers one step per queue
insertion, of which there are at most one per transition plus one. -/
def get_reachable (delta : List (LTLConjunction × List GBATransitionResult))
    (initial : LTLConjunction) : List (LTLConjunction × List GBATransitionResult) :=
  let fuel := 2 + (delta.map (fun p => p.2.length)).sum + delta.length
  let visited := getReachableBfs delta fuel [initial] []
  delta.filter (fun p => p.1 ∈ visited)

/-- `find_accepting_transitions`: one accepting set per `Until`
subformula. -/
def find_accepting_transitions (final_states : List NegativeNormalLTL)
    (delta : List (NegativeNormalLTL × List VWAATransitionResult))
    (delta2prime : List (LTLConjunction × List GBATransitionResult)) :
    List (List GBATransition) :=
  setCollect (cmpList cmpGBATransition)
    (final_states.map (fun fstate =>
      let delta_fstate := deltaLookup delta fstate
      setCollect cmpGBATransition
        (delta2prime.flatMap (fun p =>
          p.2.filterMap (fun q =>
            if !(q.2.containsF fstate) ∨
                delta_fstate.any (fun r =>
                  q.1.is_subset r.1 ∧ !(r.2.containsF fstate) ∧ r.2.is_subset q.2)
            then some ⟨p.1, q.1, q.2⟩
            else none)))))

/-- `transition_less` of `gba.rs`. -/
def transition_less (first second : GBATransition)
    (accepting_transitions : List (List GBATransition)) : Bool :=
  second.action.is_subset first.action ∧ first.target.is_subset second.target ∧
    accepting_transitions.all (fun trans_set =>
      !(second ∈ trans_set) ∨ first ∈ trans_set)

/-- `transition_comparator` of `gba.rs`. -/
def transition_comparator (accepting_transitions : List (List GBATransition))
    (first second : GBATransition) : Option Ordering :=
  if first.source ≠ second.source then none
  else if transition_less first second accepting_transitions then some Ordering.lt
  else if transition_less second first accepting_transitions then some Ordering.gt
  else none

/-- `remove_non_minimal` of `gba.rs`: fold keeping elements not strictly
dominated by another element. -/
def remove_non_minimal {T : Type} [DecidableEq T] (set : List T)
    (comparator : T → T → Option Ordering) : List T :=
  set.foldl
    (fun acc new_elem =>
      let original_size := acc.length
      let new_set := acc.filter (fun elem => comparator elem new_elem ≠ some Ordering.gt)
      let new_size := new_set.length
      if new_size < original_size ∨
          new_set.all (fun elem => comparator new_elem elem ≠ some Ordering.gt)
      then new_set ++ [new_elem]
      else new_set)
    []

/-- `agglomerate_transitions`: group transitions by source. -/
def agglomerate_transitions (transitions : List GBATransition) :
    List (LTLConjunction × List GBATransitionResult) :=
  transitions.foldl
    (fun acc t =>
      if acc.any (fun p => p.1 = t.source) then
        acc.map (fun p =>
          if p.1 = t.source then
            (p.1, setAdd cmpVWAATransitionResult p.2 (t.action, t.target))
          else p)
      else acc ++ [(t.source, [(t.action, t.target)])])
    []

/-- The initial state built in `GBA::from_vwaa`. -/
def GBA.initialFromVwaa (vwaa : VWAA) : LTLConjunction :=
  LTLConjunction.conjunction (setCollect cmpNNLTL vwaa.initial_states)

/-- The `delta2prime` of `GBA::from_vwaa`: the lifted transition map over
the power-set states, restricted to the part reachable from the initial
state (stages `delta2prime`/`get_reachable` of the source). -/
def GBA.preReductionDelta (vwaa : VWAA) : List (LTLConjunction × List GBATransitionResult) :=
  get_reachable
    ((ltl_power_set vwaa.states).map (fun ltlcon => (ltlcon, liftedDeltaEntry vwaa.delta ltlcon)))
    (GBA.initialFromVwaa vwaa)

/-- The `delta2primetransitions` of `GBA::from_vwaa`. -/
def GBA.preReductionTransitions (vwaa : VWAA) : List GBATransition :=
  setCollect cmpGBATransition
    ((GBA.preReductionDelta vwaa).flatMap (fun p => p.2.map (fun q => ⟨p.1, q.1, q.2⟩)))

/-- The accepting transition sets of `GBA::from_vwaa` before the
non-minimal-transition removal. -/
def GBA.acceptingFromVwaa (vwaa : VWAA) : List (List GBATransition) :=
  find_accepting_transitions vwaa.final_states vwaa.delta (GBA.preReductionDelta vwaa)

/-- The `deltaprimetransitions` of `GBA::from_vwaa`: the transitions that
survive `remove_non_minimal`. -/
def GBA.survivingTransitions (vwaa : VWAA) : List GBATransition :=
  remove_non_minimal (GBA.preReductionTransitions vwaa)
    (transition_comparator (GBA.acceptingFromVwaa vwaa))

/-- `GBA::from_vwaa`. -/
def GBA.from_vwaa (vwaa : VWAA) : GBA :=
  let deltaprimetransitions := GBA.survivingTransitions vwaa
  let delta_prime := agglomerate_transitions deltaprimetransitions
  { states := setCollect cmpLTLCon (delta_prime.map (·.1))
    delta := delta_prime
    initial_state := GBA.initialFromVwaa vwaa
    accepting_transitions :=
      setCollect (cmpList cmpGBATransition)
        ((GBA.acceptingFromVwaa vwaa).map
          (fun ats => ats.filter (fun t => t ∈ deltaprimetransitions))) }

/-- `GBA::get_next_edges`. -/
def GBA.get_next_edges (gba : GBA) (state : LTLConjunction) : List GBATransitionResult :=
  ((gba.delta.find? (fun p => p.1 = state)).map (·.2)).getD []

/-! ## C5: reachability of the GBA state set -/

/-- A state is justified relative to a visited set: it is the initial
state or the target of a transition leaving a visited source. -/
def JustifiedState (delta : List (LTLConjunction × List GBATransitionResult))
    (initial : LTLConjunction) (visited : List LTLConjunction) (v : LTLConjunction) : Prop :=
  v = initial ∨ ∃ e ∈ delta, e.1 ∈ visited ∧ ∃ r ∈ e.2, r.2 = v

theorem JustifiedState.mono {delta : List (LTLConjunction × List GBATransitionResult)}
    {initial : LTLConjunction} {visited visited' : List LTLConjunction} {v : LTLConjunction}
    (hsub : ∀ x ∈ visited, x ∈ visited') (h : JustifiedState delta initial visited v) :
    JustifiedState delta initial visited' v := by
  rcases h with h | ⟨e, he, hv, r, hr, hrt⟩
  · exact Or.inl h
  · exact Or.inr ⟨e, he, hsub _ hv, r, hr, hrt⟩

theorem getReachableBfs_justified
    (delta : List (LTLConjunction × List GBATransitionResult)) (initial : LTLConjunction) :
    ∀ (fuel : Nat) (queue visited : List LTLConjunction),
      (∀ v ∈ visited, JustifiedState delta initial visited v) →
      (∀ v ∈ queue, JustifiedState delta initial visited v) →
      ∀ v ∈ getReachableBfs delta fuel queue visited,
        JustifiedState delta initial (getReachableBfs delta fuel queue visited) v := by
  intro fuel
  induction fuel with
  | zero => intro queue visited h1 _ v hv; exact h1 v hv
  | succ fuel ih =>
    intro queue visited h1 h2
    match queue with
    | [] => exact h1
    | current :: rest =>
      rw [getReachableBfs]
      by_cases hc : current ∈ visited
      · simp only [if_pos hc]
        exact ih rest visited h1 (fun v hv => h2 v (List.mem_cons_of_mem _ hv))
      · simp only [if_neg hc]
        apply ih
        · intro v hv
          rcases List.mem_append.mp hv with hv | hv
          · exact (h1 v hv).mono (fun x hx => List.mem_append.mpr (Or.inl hx))
          · rcases List.mem_singleton.mp hv with rfl
            exact (h2 v (List.mem_cons_self _ _)).mono
              (fun x hx => List.mem_append.mpr (Or.inl hx))
        · intro v hv
          rcases List.mem_append.mp hv with hv | hv
          · exact (h2 v (List.mem_cons_of_mem _ hv)).mono
              (fun x hx => List.mem_append.mpr (Or.inl hx))
          · rcases List.mem_map.mp hv with ⟨r, hr, rfl⟩
            rcases hfind : delta.find? (fun p => p.1 = current) with _ | e
            · rw [hfind] at hr
              exact absurd hr (by simp)
            · rw [hfind] at hr
              have hr2 : r ∈ e.2 := hr
              refine Or.inr ⟨e, List.mem_of_find?_eq_some hfind, ?_, r, hr2, rfl⟩
              have he : e.1 = current := by
                have h3 := List.find?_some hfind
                simpa using h3
              rw [he]
              exact List.mem_append.mpr (Or.inr (List.mem_singleton.mpr rfl))

/-- Every key of the reachability-pruned transition map is the initial
state or the target of a transition of the pruned map. -/
theorem get_reachable_keys (delta : List (LTLConjunction × List GBATransitionResult))
    (initial : LTLConjunction) :
    ∀ p ∈ get_reachable delta initial,
      p.1 = initial ∨ ∃ q ∈ get_reachable delta initial, ∃ r ∈ q.2, r.2 = p.1 := by
  intro p hp
  unfold get_reachable at hp ⊢
  rcases List.mem_filter.mp hp with ⟨hpd, hpv⟩
  have hvis := of_decide_eq_true hpv
  have hj := getReachableBfs_justified delta initial _ [initial] []
    (by intro v hv; simp at hv)
    (by
      intro v hv
      rcases List.mem_singleton.mp hv with rfl
      exact Or.inl rfl)
    p.1 hvis
  rcases hj with h | ⟨e, he, hev, r, hr, hrt⟩
  · exact Or.inl h
  · refine Or.inr ⟨e, List.mem_filter.mpr ⟨he, decide_eq_true hev⟩, r, hr, hrt⟩

theorem mem_remove_non_minimal {T : Type} [DecidableEq T]
    (comparator : T → T → Option Ordering) :
    ∀ (set : List T) (x : T), x ∈ remove_non_minimal set comparator → x ∈ set := by
  have key : ∀ (l : List T) (acc : List T) (x : T),
      x ∈ l.foldl
        (fun acc new_elem =>
          let new_set := acc.filter (fun elem => comparator elem new_elem ≠ some Ordering.gt)
          if new_set.length < acc.length ∨
              new_set.all (fun elem => comparator new_elem elem ≠ some Ordering.gt)
          then new_set ++ [new_elem]
          else new_set)
        acc →
      x ∈ acc ∨ x ∈ l := by
    intro l
    induction l with
    | nil => intro acc x hx; exact Or.inl hx
    | cons y ys ih =>
      intro acc x hx
      simp only [List.foldl_cons] at hx
      rcases ih _ x hx with h | h
      · by_cases hcond : (acc.filter (fun elem => comparator elem y ≠ some Ordering.gt)).length < acc.length ∨
            (acc.filter (fun elem => comparator elem y ≠ some Ordering.gt)).all
              (fun elem => comparator y elem ≠ some Ordering.gt)
        · rw [if_pos hcond] at h
          rcases List.mem_append.mp h with h | h
          · exact Or.inl (List.mem_of_mem_filter h)
          · rcases List.mem_singleton.mp h with rfl
            exact Or.inr (List.mem_cons_self _ _)
        · rw [if_neg hcond] at h
          exact Or.inl (List.mem_of_mem_filter h)
      · exact Or.inr (List.mem_cons_of_mem _ h)
  intro set x hx
  rcases key set [] x hx with h | h
  · simp at h
  · exact h

theorem mem_agglomerate_sources :
    ∀ (ts : List GBATransition) (p : LTLConjunction × List GBATransitionResult),
      p ∈ agglomerate_transitions ts → ∃ t ∈ ts, t.source = p.1 := by
  have key : ∀ (l : List GBATransition) (acc : List (LTLConjunction × List GBATransitionResult))
      (p : LTLConjunction × List GBATransitionResult),
      p ∈ l.foldl
        (fun acc t =>
          if acc.any (fun p => p.1 = t.source) then
            acc.map (fun p =>
              if p.1 = t.source then
                (p.1, setAdd cmpVWAATransitionResult p.2 (t.action, t.target))
              else p)
          else acc ++ [(t.source, [(t.action, t.target)])])
        acc →
      p.1 ∈ acc.map (·.1) ∨ ∃ t ∈ l, t.source = p.1 := by
    intro l
    induction l with
    | nil => intro acc p hp; exact Or.inl (List.mem_map.mpr ⟨p, hp, rfl⟩)
    | cons y ys ih =>
      intro acc p hp
      simp only [List.foldl_cons] at hp
      rcases ih _ p hp with h | h
      · by_cases hcond : acc.any (fun p => p.1 = y.source)
        · rw [if_pos hcond] at h
          have hkeys : List.map (fun x => x.1)
              (acc.map (fun p =>
                if p.1 = y.source then
                  (p.1, setAdd cmpVWAATransitionResult p.2 (y.action, y.target))
                else p)) = List.map (fun x => x.1) acc := by
            rw [List.map_map]
            apply List.map_congr_left
            intro a _
            by_cases ha : a.1 = y.source
            · simp [ha]
            · simp [ha]
          rw [hkeys] at h
          exact Or.inl h
        · rw [if_neg hcond] at h
          rw [List.map_append] at h
          rcases List.mem_append.mp h with h | h
          · exact Or.inl h
          · rcases List.mem_singleton.mp h with h
            exact Or.inr ⟨y, List.mem_cons_self _ _, h.symm⟩
      · rcases h with ⟨t, ht, hts⟩
        exact Or.inr ⟨t, List.mem_cons_of_mem _ ht, hts⟩
  intro ts p hp
  rcases key ts [] p hp with h | h
  · simp at h
  · exact h

/-- C5 (amended): in the GBA returned by `GBA::from_vwaa` every state of
the `states` field is the initial state or the target of some transition
of the reachability-pruned transition map computed before the
non-minimal-transition removal; the removal step itself may strip the
last incoming transition of a state (see the counterexample). -/
theorem gba_states_initial_or_target_before_reduction (vwaa : VWAA)
    (s : LTLConjunction) (hs : s ∈ (GBA.from_vwaa vwaa).states) :
    s = (GBA.from_vwaa vwaa).initial_state ∨
      ∃ p ∈ GBA.preReductionDelta vwaa, ∃ r ∈ p.2, r.2 = s := by
  have hs' : s ∈ setCollect cmpLTLCon
      ((agglomerate_transitions (GBA.survivingTransitions vwaa)).map (·.1)) := hs
  rw [mem_setCollect] at hs'
  rcases List.mem_map.mp hs' with ⟨p, hp, rfl⟩
  rcases mem_agglomerate_sources _ p hp with ⟨t, ht, hts⟩
  have ht2 : t ∈ GBA.preReductionTransitions vwaa :=
    mem_remove_non_minimal _ _ _ ht
  have ht3 := (mem_setCollect cmpGBATransition _ t).mp ht2
  rcases List.mem_flatMap.mp ht3 with ⟨q, hq, htq⟩
  rcases List.mem_map.mp htq with ⟨r, hr, rfl⟩
  rcases get_reachable_keys _ _ q hq with h | ⟨q', hq', r', hr', hrt⟩
  · left
    rw [← hts]
    show q.1 = _
    rw [h]
    rfl
  · right
    refine ⟨q', hq', r', hr', ?_⟩
    rw [hrt, ← hts]

/-! Concrete instances for the reachability claim. -/

def aF : NegativeNormalLTL := NegativeNormalLTL.atomic (BExpr.bool Bool.true)

def bF : NegativeNormalLTL := NegativeNormalLTL.atomic (BExpr.bool Bool.false)

def XaF : NegativeNormalLTL := NegativeNormalLTL.next aF

def XabF : NegativeNormalLTL := NegativeNormalLTL.next (NegativeNormalLTL.and aF bF)

/-- A small VWAA (its transition function follows `find_delta`, its
initial states are the `bar` of `X a ∨ X (a ∧ b)`, and it has no `Until`
subformulas). -/
def vwaaEx : VWAA :=
  { states := [NegativeNormalLTL.true, aF, bF, XaF, XabF]
    delta :=
      [ (NegativeNormalLTL.true, find_delta NegativeNormalLTL.true)
      , (aF, find_delta aF)
      , (bF, find_delta bF)
      , (XaF, find_delta XaF)
      , (XabF, find_delta XabF) ]
    initial_states := [XaF, XabF]
    final_states := [] }

/-- The state `{a, b}` of the resulting GBA. -/
def orphanState : LTLConjunction := LTLConjunction.conjunction [bF, aF]

/-- C5 (counterexample): on `vwaaEx` the GBA returned by `GBA::from_vwaa`
has the state `{a, b}` in its `states` field, yet that state is neither
the initial state nor the target of any transition in `delta`: the
non-minimal-transition removal deleted its only incoming transition
(dominated by the transition into `{a}`) while its outgoing transition
kept it among the sources. -/
theorem gba_reachability_counterexample :
    orphanState ∈ (GBA.from_vwaa vwaaEx).states ∧
    orphanState ≠ (GBA.from_vwaa vwaaEx).initial_state ∧
    ∀ p ∈ (GBA.from_vwaa vwaaEx).delta, ∀ r ∈ p.2, r.2 ≠ orphanState := by
  decide

/-- Witness for the amended C5 theorem at a concrete input. -/
theorem gba_states_initial_or_target_before_reduction_witness :
    orphanState ∈ (GBA.from_vwaa vwaaEx).states ∧
    (orphanState = (GBA.from_vwaa vwaaEx).initial_state ∨
      ∃ p ∈ GBA.preReductionDelta vwaaEx, ∃ r ∈ p.2, r.2 = orphanState) :=
  ⟨by decide,
    gba_states_initial_or_target_before_reduction vwaaEx orphanState (by decide)⟩

/-! ## The Büchi automaton builder (`ba.rs`) -/

/-- `BAState(state number, layer)`. -/
structure BAState : Type where
  num : Nat
  layer : Nat
deriving DecidableEq, Repr

def cmpBAState (a b : BAState) : Ordering :=
  (compare a.num b.num).then (compare a.layer b.layer)

/-- `BATransitionResult`. -/
abbrev BATransitionResult : Type := SymbolConjunction × BAState

/-- The Büchi automaton; `delta` is a `BTreeMap`, here a key-sorted
association list. -/
structure BA : Type where
  delta : List (BAState × List BATransitionResult)
  initial_state : BAState
  top_layer : Nat
deriving DecidableEq, Repr

/-- The `next` function of `ba.rs` before its `unwrap`: search the layers
from `top_layer` down for the first (hence largest) layer whose entry
condition holds. -/
def nextLayer? (j : Nat) (q : LTLConjunction) (alpha : SymbolConjunction)
    (q_prime : LTLConjunction) (accepting_transitions : List (List GBATransition)) :
    Option Nat :=
  let r := accepting_transitions.length
  let start_pos := if j = r then 0 else j
  let t : GBATransition := ⟨q, alpha, q_prime⟩
  (List.range' start_pos (r + 1 - start_pos)).reverse.find? (fun i =>
    (List.range' (start_pos + 1) (i - start_pos)).all
      (fun k => t ∈ accepting_transitions.getD (k - 1) []))

/-- Total wrapper for `next`; the default is the `unwrap` panic, shown
unreachable for `j ≤ top_layer`. -/
def nextLayer (j : Nat) (q : LTLConjunction) (alpha : SymbolConjunction)
    (q_prime : LTLConjunction) (accepting_transitions : List (List GBATransition)) : Nat :=
  (nextLayer? j q alpha q_prime accepting_transitions).getD 0

/-- `state_to_int`: the position of a state in the iteration order of the
GBA's state set (the source tabulates `states.iter().enumerate()` into a
map; the set iteration is duplicate-free). -/
def stateToInt (states : List LTLConjunction) (q : LTLConjunction) : Nat :=
  states.findIdx (fun s => s = q)

/-- Replace-or-insert for a key-sorted association list, mirroring
`BTreeMap::insert` (collects keep the last value of a duplicate key). -/
def assocUpsert {κ ν : Type} [DecidableEq κ] (cmpK : κ → κ → Ordering)
    (acc : List (κ × ν)) (p : κ × ν) : List (κ × ν) :=
  if acc.any (fun q => q.1 = p.1) then
    acc.map (fun q => if q.1 = p.1 then p else q)
  else insertPos (fun a b => cmpK a.1 b.1) p acc

/-- `collect::<BTreeMap<_, _>>()` from an iterator of key-value pairs. -/
def mapCollect {κ ν : Type} [DecidableEq κ] (cmpK : κ → κ → Ordering)
    (l : List (κ × ν)) : List (κ × ν) :=
  l.foldl (assocUpsert cmpK) []

/-- `BA::from_gba`. -/
def BA.from_gba (gba : GBA) : BA :=
  let accepting_transitions := gba.accepting_transitions
  let top_layer := accepting_transitions.length
  let delta_prime :=
    mapCollect cmpBAState
      (gba.states.flatMap (fun q =>
        (List.range (top_layer + 1)).map (fun j =>
          (BAState.mk (stateToInt gba.states q) j,
            setCollect (cmpPair cmpSymCon cmpBAState)
              ((GBA.get_next_edges gba q).map (fun p =>
                (p.1, BAState.mk (stateToInt gba.states p.2)
                        (nextLayer j q p.1 p.2 accepting_transitions))))))))
  { delta := delta_prime
    initial_state := BAState.mk (stateToInt gba.states gba.initial_state) 0
    top_layer := top_layer }

/-- `BA::get_next_edges`. -/
def BA.get_next_edges (ba : BA) (state : BAState) : List BATransitionResult :=
  ((ba.delta.find? (fun p => p.1 = state)).map (·.2)).getD []

/-- The transitions of a BA, flattened from its `delta` map. -/
def BA.transitions (ba : BA) : List (BAState × SymbolConjunction × BAState) :=
  ba.delta.flatMap (fun p => p.2.map (fun q => (p.1, q.1, q.2)))

/-! ## Supporting lemmas for the degeneralization (`next`, `from_gba`) -/

theorem mem_range'_iff (s n x : Nat) : x ∈ List.range' s n ↔ s ≤ x ∧ x < s + n := by
  rw [List.mem_range']
  constructor
  · rintro ⟨i, hi, rfl⟩
    omega
  · rintro ⟨h1, h2⟩
    exact ⟨x - s, by omega, by omega⟩

/-- `find?` on a reversed increasing range returns the largest element
satisfying the predicate. -/
theorem find?_reverse_range'_spec (s n : Nat) (p : Nat → Bool) (i : Nat)
    (h : (List.range' s n).reverse.find? p = some i) :
    (s ≤ i ∧ i < s + n) ∧ p i ∧ ∀ j, s ≤ j → j < s + n → p j → j ≤ i := by
  have hmem : i ∈ List.range' s n := List.mem_reverse.mp (List.mem_of_find?_eq_some h)
  have hi := (mem_range'_iff s n i).mp hmem
  have hp : p i := List.find?_some h
  refine ⟨hi, hp, ?_⟩
  intro j h1 h2 hpj
  by_contra hji
  push_neg at hji
  rcases List.find?_eq_some.mp h with ⟨_, as, bs, heq, has⟩
  have hpair : ((List.range' s n).reverse).Pairwise (fun a b => b < a) :=
    (List.pairwise_reverse).mpr (List.pairwise_lt_range' s n)
  rw [heq] at hpair
  have hjmem : j ∈ as ++ i :: bs := by
    rw [← heq, List.mem_reverse, mem_range'_iff]
    exact ⟨h1, h2⟩
  rcases List.mem_append.mp hjmem with hja | hjb
  · have := has j hja
    simp [hpj] at this
  · rcases List.mem_cons.mp hjb with rfl | hjb
    · omega
    · rcases List.pairwise_append.mp hpair with ⟨_, hpc, _⟩
      have := (List.pairwise_cons.mp hpc).1 j hjb
      omega

theorem perm_insertPos {α : Type} (cmp : α → α → Ordering) (x : α) :
    ∀ l : List α, (insertPos cmp x l).Perm (x :: l) := by
  intro l
  induction l with
  | nil => simp [insertPos]
  | cons y ys ih =>
    simp only [insertPos]
    cases cmp x y with
    | lt => exact List.Perm.refl _
    | eq => exact (ih.cons y).trans (List.Perm.swap x y ys)
    | gt => exact (ih.cons y).trans (List.Perm.swap x y ys)

theorem mem_mapCollect_nodup {κ ν : Type} [DecidableEq κ] (cmpK : κ → κ → Ordering)
    (l : List (κ × ν)) (hnd : (l.map (·.1)).Nodup) (p : κ × ν) :
    p ∈ mapCollect cmpK l ↔ p ∈ l := by
  have key : ∀ (l : List (κ × ν)) (acc : List (κ × ν)),
      ((l.map (·.1)) ++ (acc.map (·.1))).Nodup →
      ∀ p, p ∈ l.foldl (assocUpsert cmpK) acc ↔ p ∈ acc ∨ p ∈ l := by
    intro l
    induction l with
    | nil =>
      intro acc _ p
      simp
    | cons x xs ih =>
      intro acc hnd p
      have hnd0 : (x.1 :: (xs.map (·.1) ++ acc.map (·.1))).Nodup := by
        have heq : (x :: xs).map (·.1) ++ acc.map (·.1) =
            x.1 :: (xs.map (·.1) ++ acc.map (·.1)) := by simp
        rw [heq] at hnd
        exact hnd
      have hx1 : x.1 ∉ acc.map (·.1) := by
        intro hc
        exact (List.nodup_cons.mp hnd0).1 (List.mem_append.mpr (Or.inr hc))
      have hup : assocUpsert cmpK acc x = insertPos (fun a b => cmpK a.1 b.1) x acc := by
        unfold assocUpsert
        rw [if_neg]
        intro hc
        rcases List.any_eq_true.mp hc with ⟨q, hq, hq1⟩
        exact hx1 (List.mem_map.mpr ⟨q, hq, of_decide_eq_true hq1⟩)
      simp only [List.foldl_cons, hup]
      have hperm : (insertPos (fun a b => cmpK a.1 b.1) x acc).Perm (x :: acc) :=
        perm_insertPos _ x acc
      have hp2 : ((insertPos (fun a b => cmpK a.1 b.1) x acc).map (·.1)).Perm
          (x.1 :: acc.map (·.1)) := by
        have := hperm.map (·.1)
        simpa using this
      have htot : ((xs.map (·.1)) ++
          ((insertPos (fun a b => cmpK a.1 b.1) x acc).map (·.1))).Perm
          (x.1 :: (xs.map (·.1) ++ acc.map (·.1))) :=
        (hp2.append_left (xs.map (·.1))).trans List.perm_middle
      have hnd2 : ((xs.map (·.1)) ++
          ((insertPos (fun a b => cmpK a.1 b.1) x acc).map (·.1))).Nodup :=
        htot.nodup_iff.mpr hnd0
      rw [ih _ hnd2 p]
      rw [mem_insertPos]
      simp only [List.mem_cons]
      tauto
  unfold mapCollect
  rw [key l [] (by simpa using hnd) p]
  simp

/-- C10: the layered `next` function is total for every layer
`j ≤ top_layer`: the candidate `i = start_pos` satisfies the search
predicate vacuously, so the `find(...).unwrap()` in `next` never panics
and `BA::from_gba` cannot fail on any GBA. -/
theorem nextLayer_total (j : Nat) (q : LTLConjunction) (alpha : SymbolConjunction)
    (q_prime : LTLConjunction) (accepting_transitions : List (List GBATransition))
    (hj : j ≤ accepting_transitions.length) :
    (nextLayer? j q alpha q_prime accepting_transitions).isSome := by
  unfold nextLayer?
  rw [List.find?_isSome]
  refine ⟨if j = accepting_transitions.length then 0 else j, ?_, ?_⟩
  · rw [List.mem_reverse, mem_range'_iff]
    by_cases hc : j = accepting_transitions.length
    · rw [if_pos hc]
      omega
    · rw [if_neg hc]
      omega
  · have hsub : (if j = accepting_transitions.length then 0 else j) -
        (if j = accepting_transitions.length then 0 else j) = 0 := Nat.sub_self _
    rw [hsub]
    rfl

/-- Witness for C10 at a concrete input. -/
theorem nextLayer_total_witness :
    (nextLayer? 0 LTLConjunction.TT SymbolConjunction.TT LTLConjunction.TT []).isSome :=
  nextLayer_total 0 LTLConjunction.TT SymbolConjunction.TT LTLConjunction.TT []
    (Nat.le_refl 0)

theorem stateToInt_spec (states : List LTLConjunction) (q : LTLConjunction)
    (h : q ∈ states) :
    ∃ hlt : stateToInt states q < states.length,
      states.get ⟨stateToInt states q, hlt⟩ = q := by
  have hlt : states.findIdx (fun s => s = q) < states.length :=
    List.findIdx_lt_length_of_exists ⟨q, h, by simp⟩
  refine ⟨hlt, ?_⟩
  rw [List.get_eq_getElem]
  have := @List.findIdx_getElem _ (fun s => s = q) states hlt
  exact of_decide_eq_true this

theorem stateToInt_inj (states : List LTLConjunction) (q1 q2 : LTLConjunction)
    (h1 : q1 ∈ states) (h2 : q2 ∈ states)
    (heq : stateToInt states q1 = stateToInt states q2) : q1 = q2 := by
  rcases stateToInt_spec states q1 h1 with ⟨hlt1, hg1⟩
  rcases stateToInt_spec states q2 h2 with ⟨hlt2, hg2⟩
  rw [← hg1, ← hg2]
  congr 1
  exact Fin.ext heq

theorem fromGba_keys_nodup (states : List LTLConjunction) (hnd : states.Nodup) (k : Nat)
    (f : LTLConjunction → Nat → List BATransitionResult) :
    ((states.flatMap (fun q => (List.range (k + 1)).map (fun j =>
        (BAState.mk (stateToInt states q) j, f q j)))).map (·.1)).Nodup := by
  rw [List.map_flatMap]
  have hbody : ∀ q : LTLConjunction,
      ((List.range (k + 1)).map (fun j => (BAState.mk (stateToInt states q) j, f q j))).map (·.1) =
        (List.range (k + 1)).map (fun j => BAState.mk (stateToInt states q) j) := by
    intro q
    rw [List.map_map]
    rfl
  rw [List.nodup_flatMap]
  constructor
  · intro q _
    rw [hbody q]
    refine List.Nodup.map ?_ (List.nodup_range _)
    intro a b hab
    exact congrArg BAState.layer hab
  · have hne : states.Pairwise (fun a b => a ≠ b) := hnd
    refine hne.imp_of_mem ?_
    intro a b ha hb hab
    show List.Disjoint _ _
    simp only [hbody]
    intro x hxa hxb
    rcases List.mem_map.mp hxa with ⟨j1, _, rfl⟩
    rcases List.mem_map.mp hxb with ⟨j2, _, hx⟩
    have hnum : stateToInt states b = stateToInt states a :=
      congrArg BAState.num hx
    exact hab (stateToInt_inj states a b ha hb hnum.symm)

theorem length_insertPos {α : Type} (cmp : α → α → Ordering) (x : α) :
    ∀ l : List α, (insertPos cmp x l).length = l.length + 1 := by
  intro l
  induction l with
  | nil => rfl
  | cons y ys ih =>
    simp only [insertPos]
    cases cmp x y with
    | lt => rfl
    | eq => simp [ih]
    | gt => simp [ih]

theorem length_mapCollect_nodup {κ ν : Type} [DecidableEq κ] (cmpK : κ → κ → Ordering)
    (l : List (κ × ν)) (hnd : (l.map (·.1)).Nodup) :
    (mapCollect cmpK l).length = l.length := by
  have key : ∀ (l : List (κ × ν)) (acc : List (κ × ν)),
      ((l.map (·.1)) ++ (acc.map (·.1))).Nodup →
      (l.foldl (assocUpsert cmpK) acc).length = acc.length + l.length := by
    intro l
    induction l with
    | nil =>
      intro acc _
      simp
    | cons x xs ih =>
      intro acc hnd
      have hnd0 : (x.1 :: (xs.map (·.1) ++ acc.map (·.1))).Nodup := by
        have heq : (x :: xs).map (·.1) ++ acc.map (·.1) =
            x.1 :: (xs.map (·.1) ++ acc.map (·.1)) := by simp
        rw [heq] at hnd
        exact hnd
      have hx1 : x.1 ∉ acc.map (·.1) := by
        intro hc
        exact (List.nodup_cons.mp hnd0).1 (List.mem_append.mpr (Or.inr hc))
      have hup : assocUpsert cmpK acc x = insertPos (fun a b => cmpK a.1 b.1) x acc := by
        unfold assocUpsert
        rw [if_neg]
        intro hc
        rcases List.any_eq_true.mp hc with ⟨q, hq, hq1⟩
        exact hx1 (List.mem_map.mpr ⟨q, hq, of_decide_eq_true hq1⟩)
      simp only [List.foldl_cons, hup]
      have hperm : (insertPos (fun a b => cmpK a.1 b.1) x acc).Perm (x :: acc) :=
        perm_insertPos _ x acc
      have hp2 : ((insertPos (fun a b => cmpK a.1 b.1) x acc).map (·.1)).Perm
          (x.1 :: acc.map (·.1)) := by
        have := hperm.map (·.1)
        simpa using this
      have htot : ((xs.map (·.1)) ++
          ((insertPos (fun a b => cmpK a.1 b.1) x acc).map (·.1))).Perm
          (x.1 :: (xs.map (·.1) ++ acc.map (·.1))) :=
        (hp2.append_left (xs.map (·.1))).trans List.perm_middle
      rw [ih _ (htot.nodup_iff.mpr hnd0)]
      rw [length_insertPos]
      simp only [List.length_cons]
      omega
  unfold mapCollect
  rw [key l [] (by simpa using hnd)]
  simp

theorem sum_map_constant {α : Type} (l : List α) (c : Nat) :
    (l.map (fun _ => c)).sum = l.length * c := by
  induction l with
  | nil => simp
  | cons x xs ih => simp [ih, Nat.succ_mul, Nat.add_comm]

/-- C3: for every layer `j ≤ top_layer`, `next` returns the largest
`i ∈ [start, top_layer]` (with `start = 0` when `j` is the top layer and
`start = j` otherwise) such that the transition lies in every accepting
set `F_{m-1}` for `start < m ≤ i`; and `BA::from_gba` emits exactly the
transitions `((q,j), α, (q', next(j,q,α,q',F)))` for GBA transitions
`(q, α, q')`. -/
theorem next_largest_and_from_gba_transitions :
    (∀ (j : Nat) (q q_prime : LTLConjunction) (alpha : SymbolConjunction)
        (acc : List (List GBATransition)),
      j ≤ acc.length →
      ∃ i, nextLayer? j q alpha q_prime acc = some i ∧
        (if j = acc.length then 0 else j) ≤ i ∧ i ≤ acc.length ∧
        (∀ m, (if j = acc.length then 0 else j) < m → m ≤ i →
          (⟨q, alpha, q_prime⟩ : GBATransition) ∈ acc.getD (m - 1) []) ∧
        (∀ i', (if j = acc.length then 0 else j) ≤ i' → i' ≤ acc.length →
          (∀ m, (if j = acc.length then 0 else j) < m → m ≤ i' →
            (⟨q, alpha, q_prime⟩ : GBATransition) ∈ acc.getD (m - 1) []) →
          i' ≤ i)) ∧
    (∀ gba : GBA, gba.states.Nodup →
      ∀ tr : BAState × SymbolConjunction × BAState,
        tr ∈ (BA.from_gba gba).transitions ↔
          ∃ q ∈ gba.states, ∃ j, j ≤ gba.accepting_transitions.length ∧
            ∃ p ∈ GBA.get_next_edges gba q,
              tr = (BAState.mk (stateToInt gba.states q) j,
                    p.1,
                    BAState.mk (stateToInt gba.states p.2)
                      (nextLayer j q p.1 p.2 gba.accepting_transitions))) := by
  constructor
  · intro j q q_prime alpha acc hj
    have hsome := nextLayer_total j q alpha q_prime acc hj
    rcases Option.isSome_iff_exists.mp hsome with ⟨i, heq⟩
    have hstart : (if j = acc.length then 0 else j) ≤ acc.length := by
      by_cases hc : j = acc.length
      · rw [if_pos hc]; omega
      · rw [if_neg hc]; omega
    have hfind : (List.range' (if j = acc.length then 0 else j)
        (acc.length + 1 - (if j = acc.length then 0 else j))).reverse.find?
          (fun i => (List.range' ((if j = acc.length then 0 else j) + 1)
            (i - (if j = acc.length then 0 else j))).all
              (fun k => (⟨q, alpha, q_prime⟩ : GBATransition) ∈ acc.getD (k - 1) [])) =
        some i := heq
    rcases find?_reverse_range'_spec _ _ _ _ hfind with ⟨⟨hlo, hhi⟩, hp, hmax⟩
    refine ⟨i, heq, hlo, by omega, ?_, ?_⟩
    · intro m hm1 hm2
      have := List.all_eq_true.mp hp m ?_
      · exact of_decide_eq_true this
      · rw [mem_range'_iff]
        omega
    · intro i' h1 h2 hprop
      refine hmax i' h1 (by omega) ?_
      rw [List.all_eq_true]
      intro m hm
      rw [mem_range'_iff] at hm
      exact decide_eq_true (hprop m (by omega) (by omega))
  · intro gba hnd tr
    have hmem := mem_mapCollect_nodup cmpBAState
      (gba.states.flatMap (fun q =>
        (List.range (gba.accepting_transitions.length + 1)).map (fun j =>
          (BAState.mk (stateToInt gba.states q) j,
            setCollect (cmpPair cmpSymCon cmpBAState)
              ((GBA.get_next_edges gba q).map (fun p =>
                (p.1, BAState.mk (stateToInt gba.states p.2)
                        (nextLayer j q p.1 p.2 gba.accepting_transitions))))))))
      (fromGba_keys_nodup gba.states hnd gba.accepting_transitions.length _)
    constructor
    · intro htr
      rcases List.mem_flatMap.mp htr with ⟨entry, hentry, htr2⟩
      have hentry2 := (hmem entry).mp hentry
      rcases List.mem_flatMap.mp hentry2 with ⟨q, hq, hentry3⟩
      rcases List.mem_map.mp hentry3 with ⟨j, hjmem, hentryeq⟩
      rcases List.mem_map.mp htr2 with ⟨pr, hpr, htreq⟩
      rw [← hentryeq] at hpr
      have hpr2 := (mem_setCollect _ _ _).mp hpr
      rcases List.mem_map.mp hpr2 with ⟨p, hp, hpreq⟩
      refine ⟨q, hq, j, ?_, p, hp, ?_⟩
      · have := List.mem_range.mp hjmem
        omega
      · rw [← htreq, ← hpreq, ← hentryeq]
    · rintro ⟨q, hq, j, hjle, p, hp, rfl⟩
      apply List.mem_flatMap.mpr
      refine ⟨(BAState.mk (stateToInt gba.states q) j,
        setCollect (cmpPair cmpSymCon cmpBAState)
          ((GBA.get_next_edges gba q).map (fun p =>
            (p.1, BAState.mk (stateToInt gba.states p.2)
                    (nextLayer j q p.1 p.2 gba.accepting_transitions))))), ?_, ?_⟩
      · apply (hmem _).mpr
        apply List.mem_flatMap.mpr
        refine ⟨q, hq, List.mem_map.mpr ⟨j, List.mem_range.mpr (by omega), rfl⟩⟩
      · apply List.mem_map.mpr
        refine ⟨(p.1, BAState.mk (stateToInt gba.states p.2)
            (nextLayer j q p.1 p.2 gba.accepting_transitions)), ?_, rfl⟩
        apply (mem_setCollect _ _ _).mpr
        exact List.mem_map.mpr ⟨p, hp, rfl⟩

/-! Concrete automata for the degeneralization and determinism claims. -/

def stA : LTLConjunction := LTLConjunction.conjunction [aF]

/-- A two-state GBA with its state set iterated in one order. -/
def gbaOrd1 : GBA :=
  { states := [LTLConjunction.TT, stA]
    delta := [(LTLConjunction.TT, [(SymbolConjunction.TT, LTLConjunction.TT)])]
    initial_state := LTLConjunction.TT
    accepting_transitions := [] }

/-- The same GBA with its state set iterated in the other order. -/
def gbaOrd2 : GBA :=
  { states := [stA, LTLConjunction.TT]
    delta := [(LTLConjunction.TT, [(SymbolConjunction.TT, LTLConjunction.TT)])]
    initial_state := LTLConjunction.TT
    accepting_transitions := [] }

/-- Witness for the C3 theorem at concrete inputs. -/
theorem next_largest_and_from_gba_transitions_witness :
    (∃ i, nextLayer? 0 LTLConjunction.TT SymbolConjunction.TT LTLConjunction.TT [] = some i ∧
      (if 0 = List.length ([] : List (List GBATransition)) then 0 else 0) ≤ i ∧
      i ≤ List.length ([] : List (List GBATransition)) ∧
      (∀ m, (if 0 = List.length ([] : List (List GBATransition)) then 0 else 0) < m → m ≤ i →
        (⟨LTLConjunction.TT, SymbolConjunction.TT, LTLConjunction.TT⟩ : GBATransition) ∈
          ([] : List (List GBATransition)).getD (m - 1) []) ∧
      (∀ i', (if 0 = List.length ([] : List (List GBATransition)) then 0 else 0) ≤ i' →
        i' ≤ List.length ([] : List (List GBATransition)) →
        (∀ m, (if 0 = List.length ([] : List (List GBATransition)) then 0 else 0) < m → m ≤ i' →
          (⟨LTLConjunction.TT, SymbolConjunction.TT, LTLConjunction.TT⟩ : GBATransition) ∈
            ([] : List (List GBATransition)).getD (m - 1) []) → i' ≤ i)) ∧
    ((BAState.mk 0 0, SymbolConjunction.TT, BAState.mk 0 0) ∈ (BA.from_gba gbaOrd1).transitions ↔
      ∃ q ∈ gbaOrd1.states, ∃ j, j ≤ gbaOrd1.accepting_transitions.length ∧
        ∃ p ∈ GBA.get_next_edges gbaOrd1 q,
          (BAState.mk 0 0, SymbolConjunction.TT, BAState.mk 0 0) =
            (BAState.mk (stateToInt gbaOrd1.states q) j,
             p.1,
             BAState.mk (stateToInt gbaOrd1.states p.2)
               (nextLayer j q p.1 p.2 gbaOrd1.accepting_transitions))) :=
  ⟨next_largest_and_from_gba_transitions.1 0 LTLConjunction.TT LTLConjunction.TT
      SymbolConjunction.TT [] (Nat.le_refl 0),
   next_largest_and_from_gba_transitions.2 gbaOrd1 (by decide) _⟩

/-- C4 (counterexample): the two iteration orders of the same GBA state
set give different `BA::from_gba` results (the state numbering follows
the iteration order of the hash-based `states` set). -/
theorem ba_from_gba_order_counterexample :
    gbaOrd1.states.Perm gbaOrd2.states ∧
    gbaOrd1.delta = gbaOrd2.delta ∧
    gbaOrd1.initial_state = gbaOrd2.initial_state ∧
    gbaOrd1.accepting_transitions = gbaOrd2.accepting_transitions ∧
    BA.from_gba gbaOrd1 ≠ BA.from_gba gbaOrd2 := by
  refine ⟨?_, rfl, rfl, rfl, by decide⟩
  have : [LTLConjunction.TT, stA].Perm [stA, LTLConjunction.TT] :=
    List.Perm.swap stA LTLConjunction.TT []
  exact this

/-- C4 (amended): each stage is a pure function of its input together
with the iteration order of the hash-based GBA state set; across two
orders of the same duplicate-free state set `BA::from_gba` keeps the top
layer and the size of the transition table (only the state numbering can
change). -/
theorem ba_from_gba_order_invariants (g1 g2 : GBA)
    (hperm : g1.states.Perm g2.states) (hnd : g1.states.Nodup)
    (ha : g1.accepting_transitions = g2.accepting_transitions) :
    (BA.from_gba g1).top_layer = (BA.from_gba g2).top_layer ∧
    (BA.from_gba g1).delta.length = (BA.from_gba g2).delta.length := by
  have hnd2 : g2.states.Nodup := hperm.nodup_iff.mp hnd
  constructor
  · show g1.accepting_transitions.length = g2.accepting_transitions.length
    rw [ha]
  · have hflat : ∀ {α β : Type} (l : List α) (f : α → List β) (c : Nat),
        (∀ x ∈ l, (f x).length = c) → (l.flatMap f).length = l.length * c := by
      intro α β l f c hc
      induction l with
      | nil => simp
      | cons x xs ih =>
        rw [List.flatMap_cons, List.length_append, hc x (List.mem_cons_self _ _),
          ih (fun y hy => hc y (List.mem_cons_of_mem _ hy))]
        simp [Nat.succ_mul, Nat.add_comm]
    have hlen : ∀ (g : GBA), g.states.Nodup →
        (BA.from_gba g).delta.length =
          g.states.length * (g.accepting_transitions.length + 1) := by
      intro g hgnd
      show (mapCollect cmpBAState _).length = _
      rw [length_mapCollect_nodup cmpBAState _
        (fromGba_keys_nodup g.states hgnd g.accepting_transitions.length _)]
      apply hflat
      intro q _
      rw [List.length_map, List.length_range]
    rw [hlen g1 hnd, hlen g2 hnd2, hperm.length_eq, ha]

/-- Witness for the amended C4 theorem at a concrete input. -/
theorem ba_from_gba_order_invariants_witness :
    (BA.from_gba gbaOrd1).top_layer = (BA.from_gba gbaOrd2).top_layer ∧
    (BA.from_gba gbaOrd1).delta.length = (BA.from_gba gbaOrd2).delta.length :=
  ba_from_gba_order_invariants gbaOrd1 gbaOrd2
    (List.Perm.swap stA LTLConjunction.TT []) (by decide) rfl

/-! ## C9: non-emptiness of `Conjunction` symbol sets along the pipeline -/

theorem wf_conjuct (a b : SymbolConjunction) (ha : a.wf) (hb : b.wf) :
    (a.conjuct b).wf := by
  cases a with
  | TT => exact hb
  | conjunction setA =>
    cases b with
    | TT => exact ha
    | conjunction setB =>
      show (!(setUnion cmpSymbol setA setB).isEmpty) = Bool.true
      cases setA with
      | nil =>
        simp [SymbolConjunction.wf] at ha
      | cons x xs =>
        have hx : x ∈ setUnion cmpSymbol (x :: xs) setB :=
          (mem_setUnion _ _ _ _).mpr (Or.inl (List.mem_cons_self _ _))
        have hne := List.ne_nil_of_mem hx
        cases hu : setUnion cmpSymbol (x :: xs) setB with
        | nil => exact absurd hu hne
        | cons a as => rfl

theorem wf_find_delta : ∀ (φ : NegativeNormalLTL), ∀ p ∈ find_delta φ, p.1.wf
  | .true => by
    intro p hp
    rcases List.mem_singleton.mp hp with rfl
    rfl
  | .false => by
    intro p hp
    exact absurd hp (List.not_mem_nil p)
  | .atomic b => by
    intro p hp
    rcases List.mem_singleton.mp hp with rfl
    rfl
  | .negAtomic b => by
    intro p hp
    rcases List.mem_singleton.mp hp with rfl
    rfl
  | .and f1 f2 => by
    have ih1 := wf_find_delta f1
    have ih2 := wf_find_delta f2
    intro p hp
    rcases (mem_circle_x _ _ _).mp hp with ⟨p1, hp1, p2, hp2, rfl⟩
    exact wf_conjuct _ _ (ih1 p1 hp1) (ih2 p2 hp2)
  | .or f1 f2 => by
    have ih1 := wf_find_delta f1
    have ih2 := wf_find_delta f2
    intro p hp
    rcases (mem_setUnion _ _ _ _).mp hp with h | h
    · exact ih1 p ((mem_setCollect _ _ _).mp h)
    · exact ih2 p h
  | .next f => by
    intro p hp
    rcases List.mem_map.mp ((mem_setCollect _ _ _).mp hp) with ⟨e, _, rfl⟩
    rfl
  | .until f1 f2 => by
    have ih1 := wf_find_delta f1
    have ih2 := wf_find_delta f2
    intro p hp
    rcases (mem_setUnion _ _ _ _).mp hp with h | h
    · exact ih2 p ((mem_setCollect _ _ _).mp h)
    · rcases (mem_circle_x _ _ _).mp h with ⟨p1, hp1, p2, hp2, rfl⟩
      rcases List.mem_singleton.mp hp2 with rfl
      exact wf_conjuct _ _ (ih1 p1 hp1) rfl
  | .release f1 f2 => by
    have ih1 := wf_find_delta f1
    have ih2 := wf_find_delta f2
    intro p hp
    rcases (mem_circle_x _ _ _).mp hp with ⟨p1, hp1, p2, hp2, rfl⟩
    rcases (mem_setAdd _ _ _ _).mp hp2 with h | h
    · rcases h with rfl
      exact wf_conjuct _ _ (ih2 p1 hp1) rfl
    · exact wf_conjuct _ _ (ih2 p1 hp1) (ih1 p2 ((mem_setCollect _ _ _).mp h))

theorem wf_deltaLookup (delta : List (NegativeNormalLTL × List VWAATransitionResult))
    (hwf : ∀ e ∈ delta, ∀ p ∈ e.2, p.1.wf) (f : NegativeNormalLTL) :
    ∀ p ∈ deltaLookup delta f, p.1.wf := by
  intro p hp
  unfold deltaLookup at hp
  rcases hfind : delta.find? (fun e => e.1 = f) with _ | e
  · rw [hfind] at hp
    exact absurd hp (by simp)
  · rw [hfind] at hp
    exact hwf e (List.mem_of_find?_eq_some hfind) p hp

theorem wf_circle_x_fold (d : List VWAATransitionResult)
    (ds : List (List VWAATransitionResult))
    (hd : ∀ p ∈ d, p.1.wf) (hds : ∀ l ∈ ds, ∀ p ∈ l, p.1.wf) :
    ∀ p ∈ ds.foldl circle_x d, p.1.wf := by
  induction ds generalizing d with
  | nil => exact hd
  | cons x xs ih =>
    intro p hp
    refine ih (circle_x d x) ?_ (fun l hl => hds l (List.mem_cons_of_mem _ hl)) p hp
    intro q hq
    rcases (mem_circle_x _ _ _).mp hq with ⟨p1, hp1, p2, hp2, rfl⟩
    exact wf_conjuct _ _ (hd p1 hp1) (hds x (List.mem_cons_self _ _) p2 hp2)

theorem wf_liftedDeltaEntry (delta : List (NegativeNormalLTL × List VWAATransitionResult))
    (hwf : ∀ e ∈ delta, ∀ p ∈ e.2, p.1.wf) (ltlcon : LTLConjunction) :
    ∀ p ∈ liftedDeltaEntry delta ltlcon, p.1.wf := by
  intro p hp
  cases ltlcon with
  | TT =>
    exact wf_deltaLookup delta hwf NegativeNormalLTL.true p
      ((mem_setCollect _ _ _).mp hp)
  | conjunction set =>
    simp only [liftedDeltaEntry] at hp
    split at hp
    · rcases List.mem_singleton.mp hp with rfl
      rfl
    · rename_i d ds hset
      refine wf_circle_x_fold d ds ?_ ?_ p ((mem_setCollect _ _ _).mp hp)
      · have hd : d ∈ set.map (deltaLookup delta) := by
          rw [hset]
          exact List.mem_cons_self _ _
        rcases List.mem_map.mp hd with ⟨e, _, heq⟩
        rw [← heq]
        exact wf_deltaLookup delta hwf e
      · intro l hl
        have hdl : l ∈ set.map (deltaLookup delta) := by
          rw [hset]
          exact List.mem_cons_of_mem _ hl
        rcases List.mem_map.mp hdl with ⟨e, _, heq⟩
        rw [← heq]
        exact wf_deltaLookup delta hwf e

theorem mem_agglomerate_values (ts : List GBATransition)
    (en : LTLConjunction × List GBATransitionResult) (r : GBATransitionResult)
    (hen : en ∈ agglomerate_transitions ts) (hr : r ∈ en.2) :
    ∃ t ∈ ts, t.action = r.1 ∧ t.target = r.2 := by
  have key : ∀ (l : List GBATransition) (acc : List (LTLConjunction × List GBATransitionResult)),
      ∀ en ∈ l.foldl
        (fun acc t =>
          if acc.any (fun p => p.1 = t.source) then
            acc.map (fun p =>
              if p.1 = t.source then
                (p.1, setAdd cmpVWAATransitionResult p.2 (t.action, t.target))
              else p)
          else acc ++ [(t.source, [(t.action, t.target)])])
        acc,
      ∀ r ∈ en.2,
        (∃ q ∈ acc, r ∈ q.2) ∨ ∃ t ∈ l, t.action = r.1 ∧ t.target = r.2 := by
    intro l
    induction l with
    | nil =>
      intro acc en hen r hr
      exact Or.inl ⟨en, hen, hr⟩
    | cons y ys ih =>
      intro acc en hen r hr
      simp only [List.foldl_cons] at hen
      rcases ih _ en hen r hr with ⟨q, hq, hrq⟩ | ⟨t, ht, hta, htt⟩
      · by_cases hcond : acc.any (fun p => p.1 = y.source)
        · rw [if_pos hcond] at hq
          rcases List.mem_map.mp hq with ⟨q0, hq0, rfl⟩
          by_cases hsrc : q0.1 = y.source
          · rw [if_pos hsrc] at hrq
            rcases (mem_setAdd _ _ _ _).mp hrq with rfl | hrq
            · exact Or.inr ⟨y, List.mem_cons_self _ _, rfl, rfl⟩
            · exact Or.inl ⟨q0, hq0, hrq⟩
          · rw [if_neg hsrc] at hrq
            exact Or.inl ⟨q0, hq0, hrq⟩
        · rw [if_neg hcond] at hq
          rcases List.mem_append.mp hq with hq | hq
          · exact Or.inl ⟨q, hq, hrq⟩
          · rcases List.mem_singleton.mp hq with rfl
            rcases List.mem_singleton.mp hrq with rfl
            exact Or.inr ⟨y, List.mem_cons_self _ _, rfl, rfl⟩
      · exact Or.inr ⟨t, List.mem_cons_of_mem _ ht, hta, htt⟩
  rcases key ts [] en hen r hr with ⟨q, hq, _⟩ | h
  · exact absurd hq (List.not_mem_nil q)
  · exact h

theorem mem_of_mem_mapCollect {κ ν : Type} [DecidableEq κ] (cmpK : κ → κ → Ordering)
    (l : List (κ × ν)) (x : κ × ν) (hx : x ∈ mapCollect cmpK l) : x ∈ l := by
  have key : ∀ (l : List (κ × ν)) (acc : List (κ × ν)),
      ∀ x ∈ l.foldl (assocUpsert cmpK) acc, x ∈ acc ∨ x ∈ l := by
    intro l
    induction l with
    | nil => intro acc x hx; exact Or.inl hx
    | cons y ys ih =>
      intro acc x hx
      simp only [List.foldl_cons] at hx
      rcases ih _ x hx with h | h
      · unfold assocUpsert at h
        split at h
        · rcases List.mem_map.mp h with ⟨q, hq, heq⟩
          by_cases hk : q.1 = y.1
          · rw [if_pos hk] at heq
            rcases heq with rfl
            exact Or.inr (List.mem_cons_self _ _)
          · rw [if_neg hk] at heq
            rcases heq with rfl
            exact Or.inl hq
        · rcases (mem_insertPos _ _ _ _).mp h with rfl | h
          · exact Or.inr (List.mem_cons_self _ _)
          · exact Or.inl h
      · exact Or.inr (List.mem_cons_of_mem _ h)
  rcases key l [] x hx with h | h
  · exact absurd h (List.not_mem_nil x)
  · exact h

theorem wf_gba_next_edges (gba : GBA)
    (hwf : ∀ en ∈ gba.delta, ∀ r ∈ en.2, r.1.wf) (q : LTLConjunction) :
    ∀ p ∈ GBA.get_next_edges gba q, p.1.wf := by
  intro p hp
  unfold GBA.get_next_edges at hp
  rcases hfind : gba.delta.find? (fun e => e.1 = q) with _ | e
  · rw [hfind] at hp
    exact absurd hp (by simp)
  · rw [hfind] at hp
    exact hwf e (List.mem_of_find?_eq_some hfind) p hp

theorem wf_from_vwaa_labels (vwaa : VWAA)
    (hwf : ∀ e ∈ vwaa.delta, ∀ p ∈ e.2, p.1.wf) :
    ∀ en ∈ (GBA.from_vwaa vwaa).delta, ∀ r ∈ en.2, r.1.wf := by
  intro en hen r hr
  rcases mem_agglomerate_values _ en r hen hr with ⟨t, ht, hta, _⟩
  have ht2 := mem_remove_non_minimal _ _ _ ht
  have ht3 := (mem_setCollect _ _ _).mp ht2
  rcases List.mem_flatMap.mp ht3 with ⟨q, hq, htq⟩
  rcases List.mem_map.mp htq with ⟨r0, hr0, heq⟩
  have hq2 : q ∈ (ltl_power_set vwaa.states).map
      (fun ltlcon => (ltlcon, liftedDeltaEntry vwaa.delta ltlcon)) :=
    List.mem_of_mem_filter hq
  rcases List.mem_map.mp hq2 with ⟨lc, _, heq2⟩
  have hr0' : r0 ∈ liftedDeltaEntry vwaa.delta lc := by
    have : q.2 = liftedDeltaEntry vwaa.delta lc := by rw [← heq2]
    rw [← this]
    exact hr0
  have hwf0 := wf_liftedDeltaEntry vwaa.delta hwf lc r0 hr0'
  rw [← hta, ← heq]
  exact hwf0

theorem wf_from_gba_labels (gba : GBA)
    (hwf : ∀ en ∈ gba.delta, ∀ r ∈ en.2, r.1.wf) :
    ∀ en ∈ (BA.from_gba gba).delta, ∀ r ∈ en.2, r.1.wf := by
  intro en hen r hr
  have hen2 := mem_of_mem_mapCollect cmpBAState _ en hen
  rcases List.mem_flatMap.mp hen2 with ⟨q, _, h2⟩
  rcases List.mem_map.mp h2 with ⟨j, _, heq⟩
  have hr2 : r ∈ setCollect (cmpPair cmpSymCon cmpBAState)
      ((GBA.get_next_edges gba q).map (fun p =>
        (p.1, BAState.mk (stateToInt gba.states p.2)
                (nextLayer j q p.1 p.2 gba.accepting_transitions)))) := by
    have : en.2 = setCollect (cmpPair cmpSymCon cmpBAState)
        ((GBA.get_next_edges gba q).map (fun p =>
          (p.1, BAState.mk (stateToInt gba.states p.2)
                  (nextLayer j q p.1 p.2 gba.accepting_transitions)))) := by
      rw [← heq]
    rw [← this]
    exact hr
  rcases List.mem_map.mp ((mem_setCollect _ _ _).mp hr2) with ⟨p, hp, hpeq⟩
  have := wf_gba_next_edges gba hwf q p hp
  rw [← hpeq]
  exact this

/-- C9: every `Conjunction` symbol set produced in the pipeline is
non-empty — `find_delta` only emits well-formed symbol conjunctions,
`conjuct` preserves well-formedness, `GBA::from_vwaa` and `BA::from_gba`
carry only well-formed edge labels, and on a well-formed label the
`reduce(...).unwrap()` in `symcon_to_bexp` cannot panic. -/
theorem symbol_conjunction_wf_pipeline :
    (∀ φ : NegativeNormalLTL, ∀ p ∈ find_delta φ, p.1.wf) ∧
    (∀ a b : SymbolConjunction, a.wf → b.wf → (a.conjuct b).wf) ∧
    (∀ vwaa : VWAA, (∀ e ∈ vwaa.delta, ∀ p ∈ e.2, p.1.wf) →
      ∀ en ∈ (GBA.from_vwaa vwaa).delta, ∀ r ∈ en.2, r.1.wf) ∧
    (∀ gba : GBA, (∀ en ∈ gba.delta, ∀ r ∈ en.2, r.1.wf) →
      ∀ en ∈ (BA.from_gba gba).delta, ∀ r ∈ en.2, r.1.wf) ∧
    (∀ sc : SymbolConjunction, sc.wf → (symconToBexp? sc).isSome) :=
  ⟨wf_find_delta, wf_conjuct, wf_from_vwaa_labels, wf_from_gba_labels, by
    intro sc hsc
    cases sc with
    | TT => rfl
    | conjunction l =>
      cases l with
      | nil => simp [SymbolConjunction.wf] at hsc
      | cons x xs => rfl⟩

/-- Witness for C9 at concrete inputs. -/
theorem symbol_conjunction_wf_pipeline_witness :
    (SymbolConjunction.conjunction [MSymbol.atomic (BExpr.bool Bool.true)]).wf ∧
    (symconToBexp? (SymbolConjunction.conjunction [MSymbol.atomic (BExpr.bool Bool.true)])).isSome ∧
    ((∀ e ∈ vwaaEx.delta, ∀ p ∈ e.2, p.1.wf) ∧
      ∀ en ∈ (GBA.from_vwaa vwaaEx).delta, ∀ r ∈ en.2, r.1.wf) :=
  ⟨by decide,
   symbol_conjunction_wf_pipeline.2.2.2.2
     (SymbolConjunction.conjunction [MSymbol.atomic (BExpr.bool Bool.true)]) (by decide),
   by decide,
   symbol_conjunction_wf_pipeline.2.2.1 vwaaEx (by decide)⟩

/-! ## C8: idempotence of the generic simplifier (`simplification.rs`) -/

/-- The capability set of the `SimplifiableAutomaton` trait that the
provided `simplify` method uses: the three reduction passes.  `GBA` and
`BA` are the two implementors. -/
structure SimplifiableAutomaton (A : Type) : Type where
  remove_inaccessible_states : A → A
  remove_implied_transitions : A → A
  remove_equivalent_states : A → A

/-- One iteration of the `simplify` loop body. -/
def SimplifiableAutomaton.pass {A : Type} (S : SimplifiableAutomaton A) (a : A) : A :=
  S.remove_equivalent_states (S.remove_implied_transitions (S.remove_inaccessible_states a))

/-- The `simplify` loop with fuel: run passes until the automaton stops
changing; `none` means the fuel ran out before a fixed point. -/
def SimplifiableAutomaton.simplify {A : Type} [DecidableEq A]
    (S : SimplifiableAutomaton A) : Nat → A → Option A
  | 0, _ => none
  | fuel + 1, a =>
    if a = S.pass a then some (S.pass a) else S.simplify fuel (S.pass a)

theorem simplify_returns_fixpoint {A : Type} [DecidableEq A]
    (S : SimplifiableAutomaton A) :
    ∀ (n : Nat) (a b : A), S.simplify n a = some b → S.pass b = b := by
  intro n
  induction n with
  | zero =>
    intro a b h
    exact absurd h (by simp [SimplifiableAutomaton.simplify])
  | succ n ih =>
    intro a b h
    rw [SimplifiableAutomaton.simplify] at h
    by_cases hc : a = S.pass a
    · rw [if_pos hc] at h
      rcases Option.some.inj h with rfl
      rw [← hc, ← hc]
    · rw [if_neg hc] at h
      exact ih _ b h

/-- C8: the generic simplifier is idempotent.  Whenever the `simplify`
loop of `SimplifiableAutomaton` returns an automaton (on a GBA, a BA, or
any other implementor), running it again on the result returns that same
automaton at once. -/
theorem simplify_idempotent {A : Type} [DecidableEq A]
    (S : SimplifiableAutomaton A) (n m : Nat) (a b : A)
    (h : S.simplify n a = some b) (hm : 1 ≤ m) :
    S.simplify m b = some b := by
  have hfix := simplify_returns_fixpoint S n a b h
  rcases m with _ | m
  · omega
  · rw [SimplifiableAutomaton.simplify, if_pos hfix.symm, hfix]

/-- A concrete implementor used to witness the idempotence theorem. -/
def simplDemo : SimplifiableAutomaton Nat :=
  { remove_inaccessible_states := fun n => n
    remove_implied_transitions := fun n => n
    remove_equivalent_states := fun n => min n 1 }

/-- Witness for C8 at a concrete input. -/
theorem simplify_idempotent_witness :
    simplDemo.simplify 3 5 = some 1 ∧ simplDemo.simplify 1 1 = some 1 :=
  ⟨by decide, simplify_idempotent simplDemo 3 1 5 1 (by decide) (by decide)⟩

/-! ## Program graphs (`pg.rs`), the stepper, and the product (`nested_dfs.rs`) -/

deriving instance DecidableEq for Except

/-- Program-graph nodes (`Node` in `pg.rs`). -/
inductive Node : Type
  | start
  | node (id : Nat)
  | stop
  | parallelStart (i : Nat)
  | parallelNode (i : Nat) (id : Nat)
  | parallelEnd (i : Nat)
deriving DecidableEq, Repr

def Node.tag : Node → Nat
  | .start => 0 | .node _ => 1 | .stop => 2
  | .parallelStart _ => 3 | .parallelNode _ _ => 4 | .parallelEnd _ => 5

/-- Structural comparison mirroring the derived `Ord` for `Node`
(`End` is named `stop` here). -/
def cmpNode : Node → Node → Ordering
  | .node a, .node b => compare a b
  | .parallelStart a, .parallelStart b => compare a b
  | .parallelNode i1 a, .parallelNode i2 b => (compare i1 i2).then (compare a b)
  | .parallelEnd a, .parallelEnd b => compare a b
  | a, b => compare a.tag b.tag

/-- Actions as used by the evaluator (the `Action` of `interpreter.rs`). -/
inductive MAction : Type
  | assignment (t : Target) (e : AExpr)
  | skip
  | condition (b : BExpr)
deriving DecidableEq, Repr

def MAction.tag : MAction → Nat
  | .assignment _ _ => 0 | .skip => 1 | .condition _ => 2

def cmpAction : MAction → MAction → Ordering
  | .assignment t1 e1, .assignment t2 e2 => (cmpTarget t1 t2).then (cmpAExpr e1 e2)
  | .condition b1, .condition b2 => cmpBExpr b1 b2
  | a, b => compare a.tag b.tag

/-- `Edge(source, action, target)`. -/
structure Edge : Type where
  src : Node
  action : MAction
  tgt : Node
deriving DecidableEq, Repr

/-- A program graph, accessed through its `outgoing` edge map. -/
structure ProgramGraph : Type where
  outgoing : Node → List Edge

/-- `ParallelProgramGraph`: one program graph per process. -/
structure ParallelProgramGraph : Type where
  procs : List ProgramGraph

/-- `Action::semantics` from `interpreter.rs`: assignment to a variable
missing from memory hits the source's `todo!()`, a panic (`none`) that
aborts the whole search; evaluation panics propagate; for an array
assignment, an in-bounds failure is (as in the source) `ArrayNotFound`
and a missing array is `IndexOutOfBound`. -/
def MAction.semantics : MAction → Memory → Option (Except InterpreterError Memory)
  | .assignment (Target.variable x) a, m =>
    if (m.getVar x).isSome then
      match a.semantics m with
      | none => none
      | some (Except.error e) => some (Except.error e)
      | some (Except.ok v) =>
        some (Except.ok
          { m with vars := m.vars.map (fun p => if p.1 = x then (x, v) else p) })
    else none
  | .assignment (Target.array arr idx) a, m =>
    match idx.semantics m with
    | none => none
    | some (Except.error e) => some (Except.error e)
    | some (Except.ok i) =>
      match m.getArr arr with
      | some data =>
        if 0 ≤ i ∧ i < data.length then
          match a.semantics m with
          | none => none
          | some (Except.error e) => some (Except.error e)
          | some (Except.ok v) =>
            some (Except.ok
              { m with arrays := m.arrays.map (fun p =>
                if p.1 = arr then (arr, p.2.set i.toNat v) else p) })
        else some (Except.error (InterpreterError.arrayNotFound arr))
      | none => some (Except.error (InterpreterError.indexOutOfBound arr i))
  | .skip, m => some (Except.ok m)
  | .condition b, m =>
    match b.semantics m with
    | none => none
    | some (Except.error e) => some (Except.error e)
    | some (Except.ok v) =>
      if v then some (Except.ok m)
      else some (Except.error InterpreterError.noProgression)

/-- A single-process configuration. -/
structure Configuration : Type where
  node : Node
  memory : Memory
deriving DecidableEq, Repr

/-- Modelled from the spec: the interpreter-level stepper
`next_configurations` imported by `concurrency.rs` is missing from the
sources; per the program-graph stepper contract (and the in-tree
analogue `next_states`, whose `.ok()` keeps successes and drops
recoverable errors) it follows each outgoing edge whose action
semantics succeeds, drops the failing ones, and propagates a panic in
any edge's action semantics (`none`). -/
def next_configurations_pg_go (m : Memory) :
    List Edge → Option (List (MAction × Configuration))
  | [] => some []
  | e :: es =>
    match e.action.semantics m, next_configurations_pg_go m es with
    | none, _ => none
    | _, none => none
    | some (Except.ok m2), some rest =>
      some ((e.action, Configuration.mk e.tgt m2) :: rest)
    | some (Except.error _), some rest => some rest

/-- The stepper over a configuration's outgoing edges. -/
def next_configurations_pg (pg : ProgramGraph) (config : Configuration) :
    Option (List (MAction × Configuration)) :=
  next_configurations_pg_go config.memory (pg.outgoing config.node)

/-- `ParallelConfiguration`: one node per process plus the shared memory. -/
structure ParallelConfiguration : Type where
  nodes : List Node
  memory : Memory
deriving DecidableEq, Repr

/-- `next_configurations` of `concurrency.rs`: let one process advance;
a panic while stepping any process propagates. -/
def next_configurations_go (config : ParallelConfiguration) :
    List (Nat × ProgramGraph × Node) → Option (List (MAction × ParallelConfiguration))
  | [] => some []
  | q :: qs =>
    match next_configurations_pg q.2.1 (Configuration.mk q.2.2 config.memory),
        next_configurations_go config qs with
    | none, _ => none
    | _, none => none
    | some l, some rest =>
      some (l.map (fun p =>
        (p.1, ParallelConfiguration.mk (config.nodes.set q.1 p.2.node) p.2.memory)) ++ rest)

def next_configurations (ppg : ParallelProgramGraph) (config : ParallelConfiguration) :
    Option (List (MAction × ParallelConfiguration)) :=
  next_configurations_go config ((ppg.procs.zip config.nodes).enum)

/-- `TrappingBAState`: a normal NBA state or the trap. -/
inductive TrappingBAState : Type
  | normalState (s : BAState)
  | trapState
deriving DecidableEq, Repr

def cmpTrappingBAState : TrappingBAState → TrappingBAState → Ordering
  | .normalState a, .normalState b => cmpBAState a b
  | .normalState _, .trapState => Ordering.lt
  | .trapState, .normalState _ => Ordering.gt
  | .trapState, .trapState => Ordering.eq

/-- Product nodes: a parallel configuration and a (trapping) BA state. -/
abbrev ProductNode : Type := ParallelConfiguration × TrappingBAState

def cmpMemory (a b : Memory) : Ordering :=
  (cmpList (cmpPair compare compare) a.vars b.vars).then
    (cmpList (cmpPair compare (cmpList compare)) a.arrays b.arrays)

def cmpParallelConfiguration (a b : ParallelConfiguration) : Ordering :=
  (cmpList cmpNode a.nodes b.nodes).then (cmpMemory a.memory b.memory)

def cmpProductNode : ProductNode → ProductNode → Ordering :=
  cmpPair cmpParallelConfiguration cmpTrappingBAState

def cmpActionProductNode : (MAction × ProductNode) → (MAction × ProductNode) → Ordering :=
  cmpPair cmpAction cmpProductNode

/-- `ProductTransitionSystem`: the lazily explored product. -/
structure ProductTransitionSystem : Type where
  program_graph : ParallelProgramGraph
  buchi : BA

/-- The `potential_next_configs` of `next_nodes`: program-graph
successors, or a `Skip` stutter when there are none. -/
def ProductTransitionSystem.potential_next_configs (pts : ProductTransitionSystem)
    (config : ParallelConfiguration) :
    Option (List (MAction × ParallelConfiguration)) :=
  match next_configurations pts.program_graph config with
  | none => none
  | some p0 => if p0.length = 0 then some [(MAction.skip, config)] else some p0

/-- The inner `filter_map` of `next_nodes`: keep a BA edge when its
symbol conjunction's `BExpr` evaluates to `ok true`, drop it on `false`
or a recoverable error, propagate a panic of the evaluation. -/
def filterBAEdges (p : MAction × ParallelConfiguration) :
    List BATransitionResult → Option (List (MAction × ProductNode))
  | [] => some []
  | q :: qs =>
    match (symconToBexp q.1).semantics p.2.memory, filterBAEdges p qs with
    | none, _ => none
    | _, none => none
    | some (Except.ok Bool.true), some rest =>
      some ((p.1, (p.2, TrappingBAState.normalState q.2)) :: rest)
    | some _, some rest => some rest

/-- The `flat_map` of `next_nodes` over the potential configurations. -/
def collectCandidates (edges : List BATransitionResult) :
    List (MAction × ParallelConfiguration) → Option (List (MAction × ProductNode))
  | [] => some []
  | p :: ps =>
    match filterBAEdges p edges, collectCandidates edges ps with
    | none, _ => none
    | _, none => none
    | some l, some rest => some (l ++ rest)

/-- The candidate successors built in `next_nodes` before the emptiness
fallback to the trap state. -/
def ProductTransitionSystem.next_nodes_candidates (pts : ProductTransitionSystem)
    (config : ParallelConfiguration) (bastate : BAState) :
    Option (List (MAction × ProductNode)) :=
  match pts.potential_next_configs config with
  | none => none
  | some cfgs => collectCandidates (pts.buchi.get_next_edges bastate) cfgs

/-- `ProductTransitionSystem::next_nodes`; the trap branch returns the
self-loop without stepping, so it cannot panic. -/
def ProductTransitionSystem.next_nodes (pts : ProductTransitionSystem)
    (node : ProductNode) : Option (List (MAction × ProductNode)) :=
  match node.2 with
  | TrappingBAState.normalState bastate =>
    match pts.next_nodes_candidates node.1 bastate with
    | none => none
    | some c =>
      if c.length ≠ 0 then some c
      else some [(MAction.skip, (node.1, TrappingBAState.trapState))]
  | TrappingBAState.trapState => some [(MAction.skip, node)]

/-- The map half of the `initial_nodes` iterator: the initial product
node an accepted BA edge produces. -/
def ProductTransitionSystem.initial_node_of (pts : ProductTransitionSystem)
    (initial_memory : Memory) (q : BATransitionResult) : ProductNode :=
  (ParallelConfiguration.mk
    (List.replicate pts.program_graph.procs.length Node.start) initial_memory,
   TrappingBAState.normalState q.2)

/-- `ProductTransitionSystem::initial_nodes`, fully consumed: filter the
BA's initial edges by their guard (a panic while filtering is `none`).
`nested_dfs` consumes the same iterator lazily, edge by edge, inside
`nested_dfs_go`. -/
def ProductTransitionSystem.initial_nodes (pts : ProductTransitionSystem)
    (initial_memory : Memory) : Option (List ProductNode) :=
  (pts.buchi.get_next_edges pts.buchi.initial_state).foldr (fun q acc =>
    match (symconToBexp q.1).semantics initial_memory, acc with
    | none, _ => none
    | _, none => none
    | some (Except.ok Bool.true), some rest =>
      some (pts.initial_node_of initial_memory q :: rest)
    | some _, some rest => some rest) (some [])

/-- `ProductTransitionSystem::state_is_final`. -/
def ProductTransitionSystem.state_is_final (pts : ProductTransitionSystem)
    (state : ProductNode) : Bool :=
  match state.2 with
  | TrappingBAState.normalState s => s.layer = pts.buchi.top_layer
  | TrappingBAState.trapState => Bool.false

/-- `LTLVerificationResult`. -/
inductive LTLVerificationResult : Type
  | CycleFound (trace : List (MAction × ProductNode))
  | CycleNotFound
  | SearchDepthExceeded
deriving DecidableEq, Repr

/-- Outcome of a source computation that can abort by panicking. -/
inductive PanicOr (α : Type) : Type
  | panicked
  | value (a : α)
deriving DecidableEq, Repr

/-- `BTreeSet::insert` on a membership-only set. -/
def listInsert {α : Type} [DecidableEq α] (l : List α) (x : α) : List α :=
  if x ∈ l then l else x :: l

/-- The loop of `cycle_check` (inner DFS), with fuel.  The state is the
stack `V` (front first), the inner visited set `T`, and the
depth-exceeded flag; on success it returns the result together with the
final `T`, or the panic raised while computing a node's successors. -/
def cycle_check_loop (pts : ProductTransitionSystem) (depth : Nat)
    (s : MAction × ProductNode) :
    Nat → List (MAction × ProductNode) → List ProductNode → Bool →
      Option (PanicOr (LTLVerificationResult × List ProductNode))
  | 0, _, _, _ => none
  | fuel + 1, V, T, sde =>
    match V with
    | [] =>
      some (PanicOr.value
        ((if sde then LTLVerificationResult.SearchDepthExceeded
          else LTLVerificationResult.CycleNotFound), T))
    | s_prime :: Vrest =>
      if depth ≤ (s_prime :: Vrest).length then
        cycle_check_loop pts depth s fuel Vrest T Bool.true
      else
        match pts.next_nodes s_prime.2 with
        | none => some PanicOr.panicked
        | some nn =>
          if s.2 ∈ (setCollect cmpActionProductNode nn).map (·.2) then
            some (PanicOr.value
              (LTLVerificationResult.CycleFound ((s :: s_prime :: Vrest).reverse), T))
          else
            match (setCollect cmpActionProductNode nn).find?
                (fun p => !(decide (p.2 ∈ T))) with
            | some s2 =>
              cycle_check_loop pts depth s fuel (s2 :: s_prime :: Vrest)
                (listInsert T s2.2) sde
            | none => cycle_check_loop pts depth s fuel Vrest T sde

/-- `cycle_check`: push the seed, mark it in `T`, and run the loop. -/
def cycle_check (pts : ProductTransitionSystem) (depth : Nat)
    (s : MAction × ProductNode) (T : List ProductNode) (fuel : Nat) :
    Option (PanicOr (LTLVerificationResult × List ProductNode)) :=
  cycle_check_loop pts depth s fuel [s] (listInsert T s.2) Bool.false

/-- The loop of `reachable_cycle` (outer DFS), with fuel; on success it
returns the result together with the final `R` and `T`, or a panic. -/
def reachable_cycle_loop (pts : ProductTransitionSystem) (depth : Nat) :
    Nat → List (MAction × ProductNode) → List ProductNode → List ProductNode → Bool →
      Option (PanicOr (LTLVerificationResult × List ProductNode × List ProductNode))
  | 0, _, _, _, _ => none
  | fuel + 1, U, R, T, sde =>
    match U with
    | [] =>
      some (PanicOr.value
        ((if sde then LTLVerificationResult.SearchDepthExceeded
          else LTLVerificationResult.CycleNotFound), R, T))
    | s_prime :: Urest =>
      if depth ≤ (s_prime :: Urest).length then
        reachable_cycle_loop pts depth fuel Urest R T Bool.true
      else
        match pts.next_nodes s_prime.2 with
        | none => some PanicOr.panicked
        | some nn =>
          match nn.find? (fun p => !(decide (p.2 ∈ R))) with
          | some s2 =>
            reachable_cycle_loop pts depth fuel (s2 :: s_prime :: Urest)
              (listInsert R s2.2) T sde
          | none =>
            if pts.state_is_final s_prime.2 then
              match cycle_check pts depth s_prime T fuel with
              | none => none
              | some PanicOr.panicked => some PanicOr.panicked
              | some (PanicOr.value (LTLVerificationResult.CycleFound V, T2)) =>
                some (PanicOr.value
                  (LTLVerificationResult.CycleFound (Urest.reverse ++ V), R, T2))
              | some (PanicOr.value (LTLVerificationResult.CycleNotFound, T2)) =>
                reachable_cycle_loop pts depth fuel Urest R T2 sde
              | some (PanicOr.value (LTLVerificationResult.SearchDepthExceeded, T2)) =>
                reachable_cycle_loop pts depth fuel Urest R T2 Bool.true
            else reachable_cycle_loop pts depth fuel Urest R T sde

/-- `reachable_cycle`: push the seed with a `Skip` action, mark it in
`R`, and run the loop. -/
def reachable_cycle (pts : ProductTransitionSystem) (depth : Nat) (s : ProductNode)
    (R T : List ProductNode) (fuel : Nat) :
    Option (PanicOr (LTLVerificationResult × List ProductNode × List ProductNode)) :=
  reachable_cycle_loop pts depth fuel [(MAction.skip, s)] (listInsert R s) T Bool.false

/-- The iteration of `nested_dfs` over the initial product nodes.  Rust
consumes the `initial_nodes` iterator lazily, so each initial BA edge's
guard is evaluated — and can panic — only when the loop reaches that
edge; the iteration is therefore over the BA edge list, filtering as it
goes. -/
def nested_dfs_go (pts : ProductTransitionSystem) (initial_memory : Memory)
    (depth fuel : Nat) :
    List BATransitionResult → List ProductNode → List ProductNode → Bool →
      Option (PanicOr LTLVerificationResult)
  | [], _, _, sde =>
    some (PanicOr.value
      (if sde then LTLVerificationResult.SearchDepthExceeded
       else LTLVerificationResult.CycleNotFound))
  | q :: rest, R, T, sde =>
    match (symconToBexp q.1).semantics initial_memory with
    | none => some PanicOr.panicked
    | some (Except.ok Bool.true) =>
      if pts.initial_node_of initial_memory q ∈ R then
        nested_dfs_go pts initial_memory depth fuel rest R T sde
      else
        match reachable_cycle pts depth (pts.initial_node_of initial_memory q)
            R T fuel with
        | none => none
        | some PanicOr.panicked => some PanicOr.panicked
        | some (PanicOr.value (LTLVerificationResult.CycleFound tr, _, _)) =>
          some (PanicOr.value (LTLVerificationResult.CycleFound tr))
        | some (PanicOr.value (LTLVerificationResult.CycleNotFound, R2, T2)) =>
          nested_dfs_go pts initial_memory depth fuel rest R2 T2 sde
        | some (PanicOr.value (LTLVerificationResult.SearchDepthExceeded, R2, T2)) =>
          nested_dfs_go pts initial_memory depth fuel rest R2 T2 Bool.true
    | some _ => nested_dfs_go pts initial_memory depth fuel rest R T sde

/-- `nested_dfs`, with fuel covering the loop iterations. -/
def nested_dfs (program_graph : ParallelProgramGraph) (buchi : BA)
    (initial_memory : Memory) (search_depth : Nat) (fuel : Nat) :
    Option (PanicOr LTLVerificationResult) :=
  nested_dfs_go (ProductTransitionSystem.mk program_graph buchi) initial_memory
    search_depth fuel (buchi.get_next_edges buchi.initial_state) [] [] Bool.false

/-! ## C6: the trap state is absorbing and never accepting -/

/-- C6: from every node `(C, Trap)` the only outgoing transition is the
`Skip` self-loop, no trap node is accepting, and hence every
successor-respecting run that reaches `(C, Trap)` stays there and never
afterwards visits an accepting product node. -/
theorem trap_state_absorbing :
    (∀ (pts : ProductTransitionSystem) (C : ParallelConfiguration),
      pts.next_nodes (C, TrappingBAState.trapState) =
        some [(MAction.skip, (C, TrappingBAState.trapState))]) ∧
    (∀ (pts : ProductTransitionSystem) (C : ParallelConfiguration),
      pts.state_is_final (C, TrappingBAState.trapState) = Bool.false) ∧
    (∀ (pts : ProductTransitionSystem) (path : Nat → ProductNode),
      (∀ n, path (n + 1) ∈ ((pts.next_nodes (path n)).getD []).map (·.2)) →
      ∀ (i : Nat) (C : ParallelConfiguration),
        path i = (C, TrappingBAState.trapState) →
        ∀ j, i ≤ j →
          path j = (C, TrappingBAState.trapState) ∧
            pts.state_is_final (path j) = Bool.false) := by
  refine ⟨fun pts C => rfl, fun pts C => rfl, ?_⟩
  intro pts path hstep i C hi j hij
  induction j with
  | zero =>
    have : i = 0 := Nat.le_zero.mp hij
    subst this
    exact ⟨hi, by rw [hi]; rfl⟩
  | succ j ih =>
    by_cases hcase : i = j + 1
    · subst hcase
      exact ⟨hi, by rw [hi]; rfl⟩
    · have hij' : i ≤ j := by omega
      have hj := ih hij'
      have hstepj := hstep j
      rw [hj.1] at hstepj
      have : pts.next_nodes (C, TrappingBAState.trapState) =
          some [(MAction.skip, (C, TrappingBAState.trapState))] := rfl
      rw [this] at hstepj
      rcases List.mem_singleton.mp (by simpa using hstepj) with heq
      exact ⟨heq, by rw [heq]; rfl⟩

def pgTriv : ParallelProgramGraph := ParallelProgramGraph.mk []

def baTriv : BA := BA.mk [] (BAState.mk 0 0) 0

def ptsTriv : ProductTransitionSystem := ProductTransitionSystem.mk pgTriv baTriv

def trapNodeEx : ProductNode :=
  (ParallelConfiguration.mk [] (Memory.mk [] []), TrappingBAState.trapState)

/-- Witness for C6 at a concrete input: the constant trap run. -/
theorem trap_state_absorbing_witness :
    ptsTriv.next_nodes trapNodeEx = some [(MAction.skip, trapNodeEx)] ∧
    (fun _ => trapNodeEx : Nat → ProductNode) 5 = trapNodeEx ∧
    ptsTriv.state_is_final ((fun _ => trapNodeEx : Nat → ProductNode) 5) = Bool.false :=
  ⟨trap_state_absorbing.1 ptsTriv trapNodeEx.1,
   (trap_state_absorbing.2.2 ptsTriv (fun _ => trapNodeEx)
     (fun n => by
       show trapNodeEx ∈
         List.map (fun x => x.2) ((ptsTriv.next_nodes trapNodeEx).getD [])
       decide)
     0 trapNodeEx.1 rfl 5 (by omega)).1,
   (trap_state_absorbing.2.2 ptsTriv (fun _ => trapNodeEx)
     (fun n => by
       show trapNodeEx ∈
         List.map (fun x => x.2) ((ptsTriv.next_nodes trapNodeEx).getD [])
       decide)
     0 trapNodeEx.1 rfl 5 (by omega)).2⟩

/-! ## Termination of the bounded nested DFS -/

/-- The set of product nodes reachable from `init` in at most `n` steps. -/
def reachFin (pts : ProductTransitionSystem) (init : Finset ProductNode) :
    Nat → Finset ProductNode
  | 0 => init
  | n + 1 =>
    reachFin pts init n ∪
      (reachFin pts init n).biUnion (fun x => (((pts.next_nodes x).getD []).map (·.2)).toFinset)

theorem reachFin_subset_succ (pts : ProductTransitionSystem) (init : Finset ProductNode)
    (n : Nat) : reachFin pts init n ⊆ reachFin pts init (n + 1) := by
  rw [show reachFin pts init (n + 1) = reachFin pts init n ∪
    (reachFin pts init n).biUnion (fun x => (((pts.next_nodes x).getD []).map (·.2)).toFinset) from rfl]
  exact Finset.subset_union_left

theorem reachFin_mono (pts : ProductTransitionSystem) (init : Finset ProductNode)
    {m n : Nat} (h : m ≤ n) : reachFin pts init m ⊆ reachFin pts init n := by
  induction n with
  | zero =>
    have : m = 0 := Nat.le_zero.mp h
    subst this
    exact Finset.Subset.refl _
  | succ n ih =>
    by_cases hc : m = n + 1
    · subst hc
      exact Finset.Subset.refl _
    · exact (ih (by omega)).trans (reachFin_subset_succ pts init n)

theorem reachFin_step (pts : ProductTransitionSystem) (init : Finset ProductNode)
    {n : Nat} {x y : ProductNode} (hx : x ∈ reachFin pts init n)
    (hy : y ∈ ((pts.next_nodes x).getD []).map (·.2)) :
    y ∈ reachFin pts init (n + 1) := by
  rw [show reachFin pts init (n + 1) = reachFin pts init n ∪
    (reachFin pts init n).biUnion (fun x => (((pts.next_nodes x).getD []).map (·.2)).toFinset) from rfl]
  apply Finset.mem_union_right
  apply Finset.mem_biUnion.mpr
  exact ⟨x, hx, List.mem_toFinset.mpr hy⟩

theorem reachFin_init_mono (pts : ProductTransitionSystem)
    {init init' : Finset ProductNode} (h : init ⊆ init') (n : Nat) :
    reachFin pts init n ⊆ reachFin pts init' n := by
  induction n with
  | zero => exact h
  | succ n ih =>
    intro y hy
    rw [show reachFin pts init (n + 1) = reachFin pts init n ∪
      (reachFin pts init n).biUnion (fun x => (((pts.next_nodes x).getD []).map (·.2)).toFinset)
      from rfl] at hy
    rcases Finset.mem_union.mp hy with hy | hy
    · exact reachFin_subset_succ pts init' n (ih hy)
    · rcases Finset.mem_biUnion.mp hy with ⟨x, hx, hyx⟩
      exact reachFin_step pts init' (ih hx) (List.mem_toFinset.mp hyx)

theorem reachFin_compose (pts : ProductTransitionSystem)
    {base init : Finset ProductNode} {m : Nat} (h : init ⊆ reachFin pts base m) :
    ∀ k, reachFin pts init k ⊆ reachFin pts base (m + k) := by
  intro k
  induction k with
  | zero => exact h
  | succ k ih =>
    intro y hy
    rw [show reachFin pts init (k + 1) = reachFin pts init k ∪
      (reachFin pts init k).biUnion (fun x => (((pts.next_nodes x).getD []).map (·.2)).toFinset)
      from rfl] at hy
    rcases Finset.mem_union.mp hy with hy | hy
    · exact reachFin_mono pts base (by omega) (ih hy)
    · rcases Finset.mem_biUnion.mp hy with ⟨x, hx, hyx⟩
      have := reachFin_step pts base (ih hx) (List.mem_toFinset.mp hyx)
      exact reachFin_mono pts base (by omega) this

/-- Positional reachability bound for a DFS stack (front first). -/
def StackBounded (pts : ProductTransitionSystem) (B : Finset ProductNode)
    (l : List (MAction × ProductNode)) : Prop :=
  ∀ i (h : i < l.length), (l.get ⟨i, h⟩).2 ∈ reachFin pts B (l.length - i)

theorem StackBounded.tail {pts : ProductTransitionSystem} {B : Finset ProductNode}
    {x : MAction × ProductNode} {xs : List (MAction × ProductNode)}
    (h : StackBounded pts B (x :: xs)) : StackBounded pts B xs := by
  intro i hi
  have := h (i + 1) (by simpa using Nat.succ_lt_succ hi)
  simpa using this

theorem StackBounded.push {pts : ProductTransitionSystem} {B : Finset ProductNode}
    {x y : MAction × ProductNode} {xs : List (MAction × ProductNode)}
    (h : StackBounded pts B (x :: xs))
    (hy : y.2 ∈ ((pts.next_nodes x.2).getD []).map (·.2)) :
    StackBounded pts B (y :: x :: xs) := by
  intro i hi
  match i with
  | 0 =>
    have hx := h 0 (by simp)
    simp only [List.get] at hx ⊢
    have := reachFin_step pts B hx hy
    have hlen : (y :: x :: xs).length - 0 = ((x :: xs).length - 0) + 1 := by
      simp
    rw [hlen]
    exact this
  | Nat.succ i =>
    have hi' : i < (x :: xs).length := by
      simpa using Nat.lt_of_succ_lt_succ hi
    have := h i hi'
    simp only [List.get] at this ⊢
    have hlen : (y :: x :: xs).length - (i + 1) = (x :: xs).length - i := by
      simp only [List.length_cons]
      omega
    rw [hlen]
    exact this

theorem StackBounded.singleton {pts : ProductTransitionSystem} {B : Finset ProductNode}
    {x : MAction × ProductNode} (h : x.2 ∈ B) : StackBounded pts B [x] := by
  intro i hi
  match i with
  | 0 =>
    simp only [List.get]
    have h0 : x.2 ∈ reachFin pts B 0 := h
    have h1 : x.2 ∈ reachFin pts B 1 := reachFin_mono pts B (by omega) h0
    show x.2 ∈ reachFin pts B ([x].length - 0)
    simpa using h1

theorem toFinset_listInsert {α : Type} [DecidableEq α] (l : List α) (x : α) :
    (listInsert l x).toFinset = insert x l.toFinset := by
  unfold listInsert
  by_cases hx : x ∈ l
  · rw [if_pos hx]
    have : x ∈ l.toFinset := List.mem_toFinset.mpr hx
    rw [Finset.insert_eq_self.mpr this]
  · rw [if_neg hx]
    exact List.toFinset_cons

theorem card_sdiff_insert_mem {α : Type} [DecidableEq α] (RS S : Finset α) (x : α)
    (hx : x ∈ RS \ S) : (RS \ insert x S).card = (RS \ S).card - 1 := by
  have heq : RS \ insert x S = (RS \ S).erase x := by
    ext a
    simp only [Finset.mem_sdiff, Finset.mem_insert, Finset.mem_erase]
    tauto
  rw [heq, Finset.card_erase_of_mem hx]

theorem cycle_check_loop_sufficient (pts : ProductTransitionSystem) (depth : Nat)
    (s : MAction × ProductNode) (B RS : Finset ProductNode)
    (hRS : reachFin pts B depth ⊆ RS) :
    ∀ (fuel : Nat) (V : List (MAction × ProductNode)) (T : List ProductNode) (sde : Bool),
      StackBounded pts B V →
      2 * (RS \ T.toFinset).card + V.length < fuel →
      (cycle_check_loop pts depth s fuel V T sde).isSome := by
  intro fuel
  induction fuel with
  | zero =>
    intro V T sde _ hf
    exact absurd hf (by omega)
  | succ fuel ih =>
    intro V T sde hB hf
    cases V with
    | nil =>
      rw [cycle_check_loop]
      rfl
    | cons s_prime Vrest =>
      rw [cycle_check_loop]
      by_cases hd : depth ≤ (s_prime :: Vrest).length
      · rw [if_pos hd]
        refine ih Vrest T Bool.true hB.tail ?_
        simp only [List.length_cons] at hf
        omega
      · rw [if_neg hd]
        split
        · rfl
        · rename_i nn hnn
          by_cases hcyc : s.2 ∈ (setCollect cmpActionProductNode nn).map (·.2)
          · rw [if_pos hcyc]
            rfl
          · rw [if_neg hcyc]
            rcases hfind : (setCollect cmpActionProductNode nn).find?
                (fun p => !(decide (p.2 ∈ T))) with _ | s2
            · rw [hfind]
              refine ih Vrest T sde hB.tail ?_
              simp only [List.length_cons] at hf
              omega
            · have hs2mem : s2 ∈ nn :=
                (mem_setCollect _ _ _).mp (List.mem_of_find?_eq_some hfind)
              have hs2succ : s2.2 ∈ ((pts.next_nodes s_prime.2).getD []).map (·.2) := by
                rw [hnn]
                exact List.mem_map.mpr ⟨s2, hs2mem, rfl⟩
              have hs2T : s2.2 ∉ T := by
                have := List.find?_some hfind
                simpa using this
              have hB' : StackBounded pts B (s2 :: s_prime :: Vrest) := hB.push hs2succ
              have hs2RS : s2.2 ∈ RS := by
                have h0 := hB' 0 (by simp)
                simp only [List.get] at h0
                refine hRS (reachFin_mono pts B ?_ h0)
                simp only [List.length_cons] at hd ⊢
                omega
              have hcard : (RS \ (listInsert T s2.2).toFinset).card =
                  (RS \ T.toFinset).card - 1 := by
                rw [toFinset_listInsert]
                exact card_sdiff_insert_mem RS T.toFinset s2.2
                  (Finset.mem_sdiff.mpr ⟨hs2RS, fun hc => hs2T (List.mem_toFinset.mp hc)⟩)
              have hpos : 1 ≤ (RS \ T.toFinset).card :=
                Finset.card_pos.mpr ⟨s2.2,
                  Finset.mem_sdiff.mpr ⟨hs2RS, fun hc => hs2T (List.mem_toFinset.mp hc)⟩⟩
              rw [hfind]
              refine ih (s2 :: s_prime :: Vrest) (listInsert T s2.2) sde hB' ?_
              rw [hcard]
              simp only [List.length_cons] at hf ⊢
              omega

theorem reachable_cycle_loop_sufficient (pts : ProductTransitionSystem) (depth : Nat)
    (B RS : Finset ProductNode) (hRS : reachFin pts B (2 * depth + 2) ⊆ RS) :
    ∀ (fuel : Nat) (U : List (MAction × ProductNode)) (R T : List ProductNode) (sde : Bool),
      StackBounded pts B U →
      2 * (RS \ R.toFinset).card + U.length + 2 * RS.card + 2 < fuel →
      (reachable_cycle_loop pts depth fuel U R T sde).isSome := by
  intro fuel
  induction fuel with
  | zero =>
    intro U R T sde _ hf
    exact absurd hf (by omega)
  | succ fuel ih =>
    intro U R T sde hB hf
    cases U with
    | nil =>
      rw [reachable_cycle_loop]
      rfl
    | cons s_prime Urest =>
      rw [reachable_cycle_loop]
      by_cases hd : depth ≤ (s_prime :: Urest).length
      · rw [if_pos hd]
        refine ih Urest R T Bool.true hB.tail ?_
        simp only [List.length_cons] at hf
        omega
      · rw [if_neg hd]
        split
        · rfl
        · rename_i nn hnn
          rcases hfind : nn.find? (fun p => !(decide (p.2 ∈ R))) with _ | s2
          · rw [hfind]
            by_cases hfin : pts.state_is_final s_prime.2
            · rw [if_pos hfin]
              have hseed : s_prime.2 ∈ reachFin pts B (s_prime :: Urest).length := by
                have h0 := hB 0 (by simp)
                simpa using h0
              have hsub : ({s_prime.2} : Finset ProductNode) ⊆
                  reachFin pts B (s_prime :: Urest).length := by
                intro x hx
                rcases Finset.mem_singleton.mp hx with rfl
                exact hseed
              have hRSin : reachFin pts ({s_prime.2} : Finset ProductNode) depth ⊆ RS := by
                refine (reachFin_compose pts hsub depth).trans ?_
                refine (reachFin_mono pts B ?_).trans hRS
                simp only [List.length_cons] at hd ⊢
                omega
              have hinner := cycle_check_loop_sufficient pts depth s_prime
                ({s_prime.2} : Finset ProductNode) RS hRSin fuel [s_prime]
                (listInsert T s_prime.2) Bool.false
                (StackBounded.singleton (Finset.mem_singleton.mpr rfl))
                (by
                  have hcard : (RS \ (listInsert T s_prime.2).toFinset).card ≤ RS.card :=
                    Finset.card_le_card (Finset.sdiff_subset)
                  simp only [List.length_cons, List.length_nil] at hf ⊢
                  omega)
              rcases Option.isSome_iff_exists.mp hinner with ⟨res, hres⟩
              rw [show cycle_check pts depth s_prime T fuel =
                cycle_check_loop pts depth s_prime fuel [s_prime]
                  (listInsert T s_prime.2) Bool.false from rfl, hres]
              rcases res with _ | ⟨r, T2⟩
              · rfl
              · rcases r with tr | _ | _
                · rfl
                · refine ih Urest R T2 sde hB.tail ?_
                  simp only [List.length_cons] at hf
                  omega
                · refine ih Urest R T2 Bool.true hB.tail ?_
                  simp only [List.length_cons] at hf
                  omega
            · rw [if_neg hfin]
              refine ih Urest R T sde hB.tail ?_
              simp only [List.length_cons] at hf
              omega
          · rw [hfind]
            have hs2succ : s2.2 ∈ ((pts.next_nodes s_prime.2).getD []).map (·.2) := by
              rw [hnn]
              exact List.mem_map.mpr ⟨s2, List.mem_of_find?_eq_some hfind, rfl⟩
            have hs2R : s2.2 ∉ R := by
              have := List.find?_some hfind
              simpa using this
            have hB' : StackBounded pts B (s2 :: s_prime :: Urest) := hB.push hs2succ
            have hs2RS : s2.2 ∈ RS := by
              have h0 := hB' 0 (by simp)
              simp only [List.get] at h0
              refine hRS (reachFin_mono pts B ?_ h0)
              simp only [List.length_cons] at hd ⊢
              omega
            have hcard : (RS \ (listInsert R s2.2).toFinset).card =
                (RS \ R.toFinset).card - 1 := by
              rw [toFinset_listInsert]
              exact card_sdiff_insert_mem RS R.toFinset s2.2
                (Finset.mem_sdiff.mpr ⟨hs2RS, fun hc => hs2R (List.mem_toFinset.mp hc)⟩)
            have hpos : 1 ≤ (RS \ R.toFinset).card :=
              Finset.card_pos.mpr ⟨s2.2,
                Finset.mem_sdiff.mpr ⟨hs2RS, fun hc => hs2R (List.mem_toFinset.mp hc)⟩⟩
            refine ih (s2 :: s_prime :: Urest) (listInsert R s2.2) T sde hB' ?_
            rw [hcard]
            simp only [List.length_cons] at hf ⊢
            omega

theorem nested_dfs_go_sufficient (pts : ProductTransitionSystem) (initial_memory : Memory)
    (depth : Nat) (RS : Finset ProductNode) (fuel : Nat)
    (hfuel : 4 * RS.card + 6 ≤ fuel) :
    ∀ (qs : List BATransitionResult),
      (∀ q ∈ qs,
        reachFin pts ({pts.initial_node_of initial_memory q} : Finset ProductNode)
          (2 * depth + 2) ⊆ RS) →
      ∀ (R T : List ProductNode) (sde : Bool),
        (nested_dfs_go pts initial_memory depth fuel qs R T sde).isSome := by
  intro qs
  induction qs with
  | nil =>
    intro _ R T sde
    rw [nested_dfs_go]
    rfl
  | cons q rest ih =>
    intro hmem R T sde
    rw [nested_dfs_go]
    split
    · rfl
    · by_cases hsR : pts.initial_node_of initial_memory q ∈ R
      · rw [if_pos hsR]
        exact ih (fun x hx => hmem x (List.mem_cons_of_mem q hx)) R T sde
      · rw [if_neg hsR]
        have hrc := reachable_cycle_loop_sufficient pts depth
          ({pts.initial_node_of initial_memory q} : Finset ProductNode) RS
          (hmem q (List.mem_cons_self q rest)) fuel
          [(MAction.skip, pts.initial_node_of initial_memory q)]
          (listInsert R (pts.initial_node_of initial_memory q)) T Bool.false
          (StackBounded.singleton (Finset.mem_singleton.mpr rfl))
          (by
            have hcard :
                (RS \ (listInsert R (pts.initial_node_of initial_memory q)).toFinset).card
                  ≤ RS.card :=
              Finset.card_le_card Finset.sdiff_subset
            simp only [List.length_cons, List.length_nil]
            omega)
        rcases Option.isSome_iff_exists.mp hrc with ⟨res, hres⟩
        rw [show reachable_cycle pts depth (pts.initial_node_of initial_memory q) R T fuel =
          reachable_cycle_loop pts depth fuel
            [(MAction.skip, pts.initial_node_of initial_memory q)]
            (listInsert R (pts.initial_node_of initial_memory q)) T
            Bool.false from rfl, hres]
        rcases res with _ | ⟨r, R2, T2⟩
        · rfl
        · rcases r with tr | _ | _
          · rfl
          · exact ih (fun x hx => hmem x (List.mem_cons_of_mem q hx)) R2 T2 sde
          · exact ih (fun x hx => hmem x (List.mem_cons_of_mem q hx)) R2 T2 Bool.true
    · exact ih (fun x hx => hmem x (List.mem_cons_of_mem q hx)) R T sde

theorem mem_filterBAEdges (p : MAction × ParallelConfiguration) :
    ∀ (qs : List BATransitionResult) (l : List (MAction × ProductNode)),
      filterBAEdges p qs = some l →
      ∀ x, (x ∈ l ↔ ∃ q ∈ qs,
        (symconToBexp q.1).semantics p.2.memory = some (Except.ok Bool.true) ∧
        x = (p.1, (p.2, TrappingBAState.normalState q.2))) := by
  intro qs
  induction qs with
  | nil =>
    intro l hl x
    rw [filterBAEdges] at hl
    obtain rfl := Option.some_inj.mp hl
    simp
  | cons q qs ih =>
    intro l hl x
    rw [filterBAEdges] at hl
    rcases hg : (symconToBexp q.1).semantics p.2.memory with _ | g
    · rcases hrest : filterBAEdges p qs with _ | rest <;> rw [hg, hrest] at hl <;>
        exact Option.noConfusion hl
    · rw [hg] at hl
      rcases hrest : filterBAEdges p qs with _ | rest
      · rw [hrest] at hl
        rcases g with e | b
        · exact Option.noConfusion hl
        · rcases b with _ | _
          · exact Option.noConfusion hl
          · exact Option.noConfusion hl
      · rw [hrest] at hl
        rcases g with e | b
        · obtain rfl := Option.some_inj.mp hl
          constructor
          · intro hx
            rcases (ih rest hrest x).mp hx with ⟨q2, hq2, hok, hxe⟩
            exact ⟨q2, List.mem_cons_of_mem q hq2, hok, hxe⟩
          · rintro ⟨q2, hq2, hok, hxe⟩
            rcases List.mem_cons.mp hq2 with rfl | hq2
            · rw [hg] at hok
              exact absurd hok (by simp)
            · exact (ih rest hrest x).mpr ⟨q2, hq2, hok, hxe⟩
        · rcases b with _ | _
          · obtain rfl := Option.some_inj.mp hl
            constructor
            · intro hx
              rcases (ih rest hrest x).mp hx with ⟨q2, hq2, hok, hxe⟩
              exact ⟨q2, List.mem_cons_of_mem q hq2, hok, hxe⟩
            · rintro ⟨q2, hq2, hok, hxe⟩
              rcases List.mem_cons.mp hq2 with rfl | hq2
              · rw [hg] at hok
                exact absurd hok (by simp)
              · exact (ih rest hrest x).mpr ⟨q2, hq2, hok, hxe⟩
          · obtain rfl := Option.some_inj.mp hl
            constructor
            · intro hx
              rcases List.mem_cons.mp hx with rfl | hx
              · exact ⟨q, List.mem_cons_self q qs, hg, rfl⟩
              · rcases (ih rest hrest x).mp hx with ⟨q2, hq2, hok, hxe⟩
                exact ⟨q2, List.mem_cons_of_mem q hq2, hok, hxe⟩
            · rintro ⟨q2, hq2, hok, hxe⟩
              rcases List.mem_cons.mp hq2 with rfl | hq2
              · rw [hxe]
                exact List.mem_cons_self _ _
              · exact List.mem_cons_of_mem _ ((ih rest hrest x).mpr ⟨q2, hq2, hok, hxe⟩)

theorem mem_collectCandidates (edges : List BATransitionResult) :
    ∀ (ps : List (MAction × ParallelConfiguration)) (l : List (MAction × ProductNode)),
      collectCandidates edges ps = some l →
      ∀ x, (x ∈ l ↔ ∃ p ∈ ps, ∃ q ∈ edges,
        (symconToBexp q.1).semantics p.2.memory = some (Except.ok Bool.true) ∧
        x = (p.1, (p.2, TrappingBAState.normalState q.2))) := by
  intro ps
  induction ps with
  | nil =>
    intro l hl x
    rw [collectCandidates] at hl
    obtain rfl := Option.some_inj.mp hl
    simp
  | cons p ps ih =>
    intro l hl x
    rw [collectCandidates] at hl
    rcases hfp : filterBAEdges p edges with _ | lp
    · rcases hrest : collectCandidates edges ps with _ | rest <;> rw [hfp, hrest] at hl <;>
        exact Option.noConfusion hl
    · rw [hfp] at hl
      rcases hrest : collectCandidates edges ps with _ | rest
      · rw [hrest] at hl
        exact Option.noConfusion hl
      · rw [hrest] at hl
        obtain rfl := Option.some_inj.mp hl
        constructor
        · intro hx
          rcases List.mem_append.mp hx with hx | hx
          · rcases (mem_filterBAEdges p edges lp hfp x).mp hx with ⟨q, hq, hok, hxe⟩
            exact ⟨p, List.mem_cons_self p ps, q, hq, hok, hxe⟩
          · rcases (ih rest hrest x).mp hx with ⟨p2, hp2, hrest2⟩
            exact ⟨p2, List.mem_cons_of_mem p hp2, hrest2⟩
        · rintro ⟨p2, hp2, q, hq, hok, hxe⟩
          rcases List.mem_cons.mp hp2 with rfl | hp2
          · exact List.mem_append.mpr
              (Or.inl ((mem_filterBAEdges p2 edges lp hfp x).mpr ⟨q, hq, hok, hxe⟩))
          · exact List.mem_append.mpr
              (Or.inr ((ih rest hrest x).mpr ⟨p2, hp2, q, hq, hok, hxe⟩))

theorem mem_initial_nodes_fold (pts : ProductTransitionSystem) (initial_memory : Memory) :
    ∀ (qs : List BATransitionResult) (l : List ProductNode),
      (qs.foldr (fun q acc =>
        match (symconToBexp q.1).semantics initial_memory, acc with
        | none, _ => none
        | _, none => none
        | some (Except.ok Bool.true), some rest =>
          some (pts.initial_node_of initial_memory q :: rest)
        | some _, some rest => some rest) (some [])) = some l →
      ∀ x, (x ∈ l ↔ ∃ q ∈ qs,
        (symconToBexp q.1).semantics initial_memory = some (Except.ok Bool.true) ∧
        x = pts.initial_node_of initial_memory q) := by
  intro qs
  induction qs with
  | nil =>
    intro l hl x
    rw [List.foldr_nil] at hl
    obtain rfl := Option.some_inj.mp hl
    simp
  | cons q qs ih =>
    intro l hl x
    rw [List.foldr_cons] at hl
    rcases hg : (symconToBexp q.1).semantics initial_memory with _ | g
    · rcases hrest : (qs.foldr (fun q acc =>
          match (symconToBexp q.1).semantics initial_memory, acc with
          | none, _ => none
          | _, none => none
          | some (Except.ok Bool.true), some rest =>
            some (pts.initial_node_of initial_memory q :: rest)
          | some _, some rest => some rest) (some [])) with _ | rest <;>
        rw [hg, hrest] at hl <;> exact Option.noConfusion hl
    · rw [hg] at hl
      rcases hrest : (qs.foldr (fun q acc =>
          match (symconToBexp q.1).semantics initial_memory, acc with
          | none, _ => none
          | _, none => none
          | some (Except.ok Bool.true), some rest =>
            some (pts.initial_node_of initial_memory q :: rest)
          | some _, some rest => some rest) (some [])) with _ | rest
      · rw [hrest] at hl
        rcases g with e | b
        · exact Option.noConfusion hl
        · rcases b with _ | _
          · exact Option.noConfusion hl
          · exact Option.noConfusion hl
      · rw [hrest] at hl
        rcases g with e | b
        · obtain rfl := Option.some_inj.mp hl
          constructor
          · intro hx
            rcases (ih rest hrest x).mp hx with ⟨q2, hq2, hok, hxe⟩
            exact ⟨q2, List.mem_cons_of_mem q hq2, hok, hxe⟩
          · rintro ⟨q2, hq2, hok, hxe⟩
            rcases List.mem_cons.mp hq2 with rfl | hq2
            · rw [hg] at hok
              exact absurd hok (by simp)
            · exact (ih rest hrest x).mpr ⟨q2, hq2, hok, hxe⟩
        · rcases b with _ | _
          · obtain rfl := Option.some_inj.mp hl
            constructor
            · intro hx
              rcases (ih rest hrest x).mp hx with ⟨q2, hq2, hok, hxe⟩
              exact ⟨q2, List.mem_cons_of_mem q hq2, hok, hxe⟩
            · rintro ⟨q2, hq2, hok, hxe⟩
              rcases List.mem_cons.mp hq2 with rfl | hq2
              · rw [hg] at hok
                exact absurd hok (by simp)
              · exact (ih rest hrest x).mpr ⟨q2, hq2, hok, hxe⟩
          · obtain rfl := Option.some_inj.mp hl
            constructor
            · intro hx
              rcases List.mem_cons.mp hx with rfl | hx
              · exact ⟨q, List.mem_cons_self q qs, hg, rfl⟩
              · rcases (ih rest hrest x).mp hx with ⟨q2, hq2, hok, hxe⟩
                exact ⟨q2, List.mem_cons_of_mem q hq2, hok, hxe⟩
            · rintro ⟨q2, hq2, hok, hxe⟩
              rcases List.mem_cons.mp hq2 with rfl | hq2
              · rw [hxe]
                exact List.mem_cons_self _ _
              · exact List.mem_cons_of_mem _ ((ih rest hrest x).mpr ⟨q2, hq2, hok, hxe⟩)

/-! ## C2: recoverable evaluation errors act as false; panics abort -/

/-- C2 (amended): a candidate product successor (in `next_nodes`) or
initial node (in `initial_nodes`) is produced exactly from the edges
whose symbol conjunction's Boolean expression evaluates to `ok true` in
the current memory — a recoverable `InterpreterError` (like a `false`)
just drops the edge and never aborts — and the fueled embedding of the
search always terminates with some outcome for fuel large enough.  The
outcome can however be a panic (see the counterexample): the original
claim that the search always returns a verdict is false, because the
interpreter's assignment-to-a-missing-variable `todo!()` aborts the
search. -/
theorem error_treated_as_false_and_fueled_search_terminates :
    (∀ (pts : ProductTransitionSystem) (config : ParallelConfiguration) (bastate : BAState)
        (l : List (MAction × ProductNode)),
      pts.next_nodes_candidates config bastate = some l →
      ∀ (x : MAction × ProductNode),
        (x ∈ l ↔ ∃ cfgs, pts.potential_next_configs config = some cfgs ∧
          ∃ p ∈ cfgs, ∃ q ∈ pts.buchi.get_next_edges bastate,
            (symconToBexp q.1).semantics p.2.memory = some (Except.ok Bool.true) ∧
            x = (p.1, (p.2, TrappingBAState.normalState q.2)))) ∧
    (∀ (pts : ProductTransitionSystem) (initial_memory : Memory) (l : List ProductNode),
      pts.initial_nodes initial_memory = some l →
      ∀ (x : ProductNode),
        (x ∈ l ↔ ∃ q ∈ pts.buchi.get_next_edges pts.buchi.initial_state,
          (symconToBexp q.1).semantics initial_memory = some (Except.ok Bool.true) ∧
          x = pts.initial_node_of initial_memory q)) ∧
    (∀ (program_graph : ParallelProgramGraph) (buchi : BA)
        (initial_memory : Memory) (search_depth : Nat),
      ∃ (fuel : Nat) (outcome : PanicOr LTLVerificationResult),
        nested_dfs program_graph buchi initial_memory search_depth fuel = some outcome) := by
  refine ⟨?_, ?_, ?_⟩
  · intro pts config bastate l hl x
    rw [ProductTransitionSystem.next_nodes_candidates] at hl
    rcases hpc : pts.potential_next_configs config with _ | cfgs
    · rw [hpc] at hl
      exact Option.noConfusion hl
    · rw [hpc] at hl
      constructor
      · intro hx
        rcases (mem_collectCandidates (pts.buchi.get_next_edges bastate) cfgs l hl x).mp hx
          with ⟨p, hp, q, hq, hok, hxe⟩
        exact ⟨cfgs, rfl, p, hp, q, hq, hok, hxe⟩
      · rintro ⟨cfgs2, hcfgs2, p, hp, q, hq, hok, hxe⟩
        obtain rfl := Option.some_inj.mp hcfgs2
        exact (mem_collectCandidates (pts.buchi.get_next_edges bastate) cfgs l hl x).mpr
          ⟨p, hp, q, hq, hok, hxe⟩
  · intro pts initial_memory l hl x
    exact mem_initial_nodes_fold pts initial_memory
      (pts.buchi.get_next_edges pts.buchi.initial_state) l hl x
  · intro program_graph buchi initial_memory search_depth
    have hmain :
        ∀ (pts : ProductTransitionSystem) (qs : List BATransitionResult),
          ∃ fuel,
            (nested_dfs_go pts initial_memory search_depth fuel qs [] [] Bool.false).isSome := by
      intro pts qs
      refine ⟨4 * (qs.toFinset.biUnion
        (fun q => reachFin pts
          ({pts.initial_node_of initial_memory q} : Finset ProductNode)
          (2 * search_depth + 2))).card + 6, ?_⟩
      refine nested_dfs_go_sufficient pts initial_memory search_depth
        (qs.toFinset.biUnion
          (fun q => reachFin pts
            ({pts.initial_node_of initial_memory q} : Finset ProductNode)
            (2 * search_depth + 2)))
        _ le_rfl qs ?_ [] [] Bool.false
      intro q hq
      exact Finset.subset_biUnion_of_mem
        (fun q => reachFin pts
          ({pts.initial_node_of initial_memory q} : Finset ProductNode)
          (2 * search_depth + 2))
        (List.mem_toFinset.mpr hq)
    rcases hmain (ProductTransitionSystem.mk program_graph buchi)
      (buchi.get_next_edges buchi.initial_state) with ⟨fuel, hsome⟩
    rcases Option.isSome_iff_exists.mp hsome with ⟨outcome, hr⟩
    exact ⟨fuel, outcome, hr⟩

/-- A one-process program graph looping `Start -Skip-> q1 -Skip-> Start`. -/
def pgEx : ParallelProgramGraph :=
  ParallelProgramGraph.mk [ProgramGraph.mk (fun n =>
    match n with
    | Node.start => [Edge.mk Node.start MAction.skip (Node.node 1)]
    | Node.node _ => [Edge.mk (Node.node 1) MAction.skip Node.start]
    | _ => [])]

/-- A one-state Büchi automaton accepting everything: a `TT` self-loop on
the single state, which sits on the accepting layer. -/
def baEx : BA :=
  BA.mk [(BAState.mk 0 0, [(SymbolConjunction.TT, BAState.mk 0 0)])] (BAState.mk 0 0) 0

/-- The empty memory. -/
def memEx : Memory := Memory.mk [] []

theorem error_treated_as_false_and_fueled_search_terminates_witness :
    ((MAction.skip, (ParallelConfiguration.mk [Node.node 1] memEx,
        TrappingBAState.normalState (BAState.mk 0 0))) ∈
      [(MAction.skip, (ParallelConfiguration.mk [Node.node 1] memEx,
        TrappingBAState.normalState (BAState.mk 0 0)))] ↔
      ∃ cfgs, (ProductTransitionSystem.mk pgEx baEx).potential_next_configs
          (ParallelConfiguration.mk [Node.start] memEx) = some cfgs ∧
        ∃ p ∈ cfgs,
          ∃ q ∈ (ProductTransitionSystem.mk pgEx baEx).buchi.get_next_edges
            (BAState.mk 0 0),
            (symconToBexp q.1).semantics p.2.memory = some (Except.ok Bool.true) ∧
            (MAction.skip, (ParallelConfiguration.mk [Node.node 1] memEx,
              TrappingBAState.normalState (BAState.mk 0 0))) =
              (p.1, (p.2, TrappingBAState.normalState q.2))) ∧
    (∃ (fuel : Nat) (outcome : PanicOr LTLVerificationResult),
      nested_dfs pgEx baEx memEx 10 fuel = some outcome) :=
  ⟨error_treated_as_false_and_fueled_search_terminates.1
      (ProductTransitionSystem.mk pgEx baEx)
      (ParallelConfiguration.mk [Node.start] memEx) (BAState.mk 0 0)
      [(MAction.skip, (ParallelConfiguration.mk [Node.node 1] memEx,
        TrappingBAState.normalState (BAState.mk 0 0)))] rfl
      (MAction.skip, (ParallelConfiguration.mk [Node.node 1] memEx,
        TrappingBAState.normalState (BAState.mk 0 0))),
   error_treated_as_false_and_fueled_search_terminates.2.2 pgEx baEx memEx 10⟩

/-- A one-process program whose only edge assigns to the variable `x`,
missing from the empty memory: stepping it hits the interpreter's
`todo!()`. -/
def pgPanic : ParallelProgramGraph :=
  ParallelProgramGraph.mk [ProgramGraph.mk (fun n =>
    match n with
    | Node.start => [Edge.mk Node.start
        (MAction.assignment (Target.variable "x") (AExpr.number 1)) Node.stop]
    | _ => [])]

/-- C2 counterexample: on `pgPanic` (an assignment to a variable absent
from memory) the search panics instead of returning a verdict — it
returns no `LTLVerificationResult` at all. -/
theorem search_aborted_by_panic_counterexample :
    nested_dfs pgPanic baEx memEx 10 100 = some PanicOr.panicked ∧
    ∀ (r : LTLVerificationResult),
      nested_dfs pgPanic baEx memEx 10 100 ≠ some (PanicOr.value r) := by
  refine ⟨rfl, ?_⟩
  intro r h
  rw [show nested_dfs pgPanic baEx memEx 10 100 = some PanicOr.panicked from rfl] at h
  exact PanicOr.noConfusion (Option.some_inj.mp h)

/-! ## C1: shape of a `CycleFound` trace -/

/-- The trace the nested DFS returns on `pgEx`/`baEx`/`memEx`. -/
def traceEx : List (MAction × ProductNode) :=
  [(MAction.skip, (ParallelConfiguration.mk [Node.start] memEx,
     TrappingBAState.normalState (BAState.mk 0 0))),
   (MAction.skip, (ParallelConfiguration.mk [Node.node 1] memEx,
     TrappingBAState.normalState (BAState.mk 0 0))),
   (MAction.skip, (ParallelConfiguration.mk [Node.start] memEx,
     TrappingBAState.normalState (BAState.mk 0 0))),
   (MAction.skip, (ParallelConfiguration.mk [Node.node 1] memEx,
     TrappingBAState.normalState (BAState.mk 0 0)))]

theorem cycle_check_loop_cycle_shape (pts : ProductTransitionSystem) (depth : Nat)
    (s : MAction × ProductNode) :
    ∀ (fuel : Nat) (V : List (MAction × ProductNode)) (T : List ProductNode) (sde : Bool)
      (tr : List (MAction × ProductNode)) (T2 : List ProductNode),
      cycle_check_loop pts depth s fuel V T sde =
        some (PanicOr.value (LTLVerificationResult.CycleFound tr, T2)) →
      List.Chain' (fun a b => a.2 ∈ ((pts.next_nodes b.2).getD []).map (·.2)) V →
      (V = [] ∨ V.getLast? = some s) →
      List.Chain' (fun a b => b.2 ∈ ((pts.next_nodes a.2).getD []).map (·.2)) tr ∧
        tr.head? = some s ∧ tr.getLast? = some s ∧ 2 ≤ tr.length := by
  intro fuel
  induction fuel with
  | zero =>
    intro V T sde tr T2 h
    exact absurd h (by simp [cycle_check_loop])
  | succ fuel ih =>
    intro V T sde tr T2 h hchain hbot
    cases V with
    | nil =>
      rw [cycle_check_loop] at h
      cases sde <;> simp at h
    | cons s_prime Vrest =>
      rw [cycle_check_loop] at h
      have hbot' : (s_prime :: Vrest).getLast? = some s := by
        rcases hbot with h0 | h1
        · exact absurd h0 (by simp)
        · exact h1
      have hbotTail : Vrest = [] ∨ Vrest.getLast? = some s := by
        cases Vrest with
        | nil => exact Or.inl rfl
        | cons y ys => exact Or.inr (by rw [List.getLast?_cons_cons] at hbot'; exact hbot')
      by_cases hd : depth ≤ (s_prime :: Vrest).length
      · rw [if_pos hd] at h
        exact ih Vrest T Bool.true tr T2 h hchain.tail hbotTail
      · rw [if_neg hd] at h
        split at h
        · simp at h
        · rename_i nn hnn
          by_cases hfound : s.2 ∈ (setCollect cmpActionProductNode nn).map (·.2)
          · rw [if_pos hfound] at h
            have hS : s.2 ∈ ((pts.next_nodes s_prime.2).getD []).map (·.2) := by
              rw [hnn]
              rcases List.mem_map.mp hfound with ⟨p, hp, hps⟩
              exact List.mem_map.mpr ⟨p, (mem_setCollect _ _ p).mp hp, hps⟩
            simp only [Option.some_inj, PanicOr.value.injEq, Prod.mk.injEq] at h
            obtain ⟨h1, _⟩ := h
            injection h1 with htr
            subst htr
            refine ⟨?_, ?_, ?_, ?_⟩
            · rw [List.chain'_reverse]
              exact List.chain'_cons.mpr ⟨hS, hchain⟩
            · rw [List.head?_reverse, List.getLast?_cons_cons]
              exact hbot'
            · rw [List.getLast?_reverse]
              rfl
            · simp only [List.length_reverse, List.length_cons]
              omega
          · rw [if_neg hfound] at h
            rcases hfind : (setCollect cmpActionProductNode nn).find?
                (fun p => !(decide (p.2 ∈ T))) with _ | s2
            · rw [hfind] at h
              exact ih Vrest T sde tr T2 h hchain.tail hbotTail
            · rw [hfind] at h
              have hS2 : s2.2 ∈ ((pts.next_nodes s_prime.2).getD []).map (·.2) := by
                rw [hnn]
                have hmem := List.mem_of_find?_eq_some hfind
                exact List.mem_map.mpr ⟨s2, (mem_setCollect _ _ s2).mp hmem, rfl⟩
              refine ih (s2 :: s_prime :: Vrest) (listInsert T s2.2) sde tr T2 h
                (List.chain'_cons.mpr ⟨hS2, hchain⟩) (Or.inr ?_)
              rw [List.getLast?_cons_cons]
              exact hbot'

theorem reachable_cycle_loop_cycle_shape (pts : ProductTransitionSystem) (depth : Nat) :
    ∀ (fuel : Nat) (U : List (MAction × ProductNode)) (R T : List ProductNode) (sde : Bool)
      (trc : List (MAction × ProductNode)) (R2 T2 : List ProductNode),
      reachable_cycle_loop pts depth fuel U R T sde =
        some (PanicOr.value (LTLVerificationResult.CycleFound trc, R2, T2)) →
      List.Chain' (fun a b => a.2 ∈ ((pts.next_nodes b.2).getD []).map (·.2)) U →
      List.Chain' (fun a b => b.2 ∈ ((pts.next_nodes a.2).getD []).map (·.2)) trc ∧
        ∃ (k : Nat) (x : MAction × ProductNode),
          trc[k]? = some x ∧ trc.getLast? = some x ∧ k + 1 < trc.length ∧
          pts.state_is_final x.2 = Bool.true := by
  intro fuel
  induction fuel with
  | zero =>
    intro U R T sde trc R2 T2 h
    exact absurd h (by simp [reachable_cycle_loop])
  | succ fuel ih =>
    intro U R T sde trc R2 T2 h hchain
    cases U with
    | nil =>
      rw [reachable_cycle_loop] at h
      cases sde <;> simp at h
    | cons s_prime Urest =>
      rw [reachable_cycle_loop] at h
      by_cases hd : depth ≤ (s_prime :: Urest).length
      · rw [if_pos hd] at h
        exact ih Urest R T Bool.true trc R2 T2 h hchain.tail
      · rw [if_neg hd] at h
        split at h
        · simp at h
        · rename_i nn hnn
          rcases hfind : nn.find? (fun p => !(decide (p.2 ∈ R))) with _ | s2
          · rw [hfind] at h
            by_cases hfin : pts.state_is_final s_prime.2
            · rw [if_pos hfin] at h
              rcases hcc : cycle_check pts depth s_prime T fuel with _ | pr
              · rw [hcc] at h
                exact absurd h (by simp)
              · rw [hcc] at h
                rcases pr with _ | ⟨r, T2p⟩
                · simp at h
                · rcases r with V | _ | _
                  · simp only [Option.some_inj, PanicOr.value.injEq, Prod.mk.injEq] at h
                    obtain ⟨h1, _, _⟩ := h
                    injection h1 with htr
                    subst htr
                    have hinner := cycle_check_loop_cycle_shape pts depth s_prime fuel
                      [s_prime] (listInsert T s_prime.2) Bool.false V T2p hcc
                      (List.chain'_singleton s_prime) (Or.inr rfl)
                    obtain ⟨hchV, hheadV, hlastV, hlenV⟩ := hinner
                    have hVne : V ≠ [] := by
                      intro hV
                      rw [hV] at hlenV
                      simp at hlenV
                    constructor
                    · refine List.chain'_append.mpr
                        ⟨List.chain'_reverse.mpr hchain.tail, hchV, ?_⟩
                      intro x hx y hy
                      rw [List.getLast?_reverse] at hx
                      rw [hheadV] at hy
                      have hys : y = s_prime :=
                        (Option.some_inj.mp (Option.mem_def.mp hy)).symm
                      subst hys
                      cases Urest with
                      | nil => simp at hx
                      | cons u us =>
                        have hxu : x = u := by
                          have := Option.mem_def.mp hx
                          simpa using this.symm
                        subst hxu
                        exact (List.chain'_cons.mp hchain).1
                    · refine ⟨Urest.length, s_prime, ?_, ?_, ?_, ?_⟩
                      · rw [List.getElem?_append_right (by simp)]
                        simp only [List.length_reverse, Nat.sub_self]
                        rw [show V[0]? = V.head? from (List.head?_eq_getElem? V).symm]
                        exact hheadV
                      · rw [List.getLast?_append_of_ne_nil Urest.reverse hVne]
                        exact hlastV
                      · simp only [List.length_append, List.length_reverse]
                        omega
                      · exact hfin
                  · exact ih Urest R T2p sde trc R2 T2 h hchain.tail
                  · exact ih Urest R T2p Bool.true trc R2 T2 h hchain.tail
            · rw [if_neg hfin] at h
              exact ih Urest R T sde trc R2 T2 h hchain.tail
          · rw [hfind] at h
            have hS2 : s2.2 ∈ ((pts.next_nodes s_prime.2).getD []).map (·.2) := by
              rw [hnn]
              exact List.mem_map.mpr ⟨s2, List.mem_of_find?_eq_some hfind, rfl⟩
            exact ih (s2 :: s_prime :: Urest) (listInsert R s2.2) T sde trc R2 T2 h
              (List.chain'_cons.mpr ⟨hS2, hchain⟩)

theorem nested_dfs_go_cycle_shape (pts : ProductTransitionSystem) (initial_memory : Memory)
    (depth fuel : Nat) :
    ∀ (qs : List BATransitionResult) (R T : List ProductNode) (sde : Bool)
      (trc : List (MAction × ProductNode)),
      nested_dfs_go pts initial_memory depth fuel qs R T sde =
        some (PanicOr.value (LTLVerificationResult.CycleFound trc)) →
      List.Chain' (fun a b => b.2 ∈ ((pts.next_nodes a.2).getD []).map (·.2)) trc ∧
        ∃ (k : Nat) (x : MAction × ProductNode),
          trc[k]? = some x ∧ trc.getLast? = some x ∧ k + 1 < trc.length ∧
          pts.state_is_final x.2 = Bool.true := by
  intro qs
  induction qs with
  | nil =>
    intro R T sde trc h
    rw [nested_dfs_go] at h
    cases sde <;> simp at h
  | cons q rest ih =>
    intro R T sde trc h
    rw [nested_dfs_go] at h
    split at h
    · simp at h
    · by_cases hsR : pts.initial_node_of initial_memory q ∈ R
      · rw [if_pos hsR] at h
        exact ih R T sde trc h
      · rw [if_neg hsR] at h
        rcases hrc : reachable_cycle pts depth (pts.initial_node_of initial_memory q)
            R T fuel with _ | pr
        · rw [hrc] at h
          exact absurd h (by simp)
        · rw [hrc] at h
          rcases pr with _ | ⟨r, R2, T2⟩
          · simp at h
          · rcases r with V | _ | _
            · simp only [Option.some_inj, PanicOr.value.injEq] at h
              injection h with htr
              subst htr
              exact reachable_cycle_loop_cycle_shape pts depth fuel
                [(MAction.skip, pts.initial_node_of initial_memory q)]
                (listInsert R (pts.initial_node_of initial_memory q)) T Bool.false
                V R2 T2 hrc (List.chain'_singleton _)
            · exact ih R2 T2 sde trc h
            · exact ih R2 T2 Bool.true trc h
    · exact ih R T sde trc h

/-- C1 (amended): whenever `nested_dfs` returns `CycleFound trace`,
(a) every consecutive pair of product nodes in the trace is a legal
product transition and (c) the cycle portion contains an accepting node:
there is an index `k` before the end of the trace holding the accepting
seed of the inner DFS, and the trace's last entry equals that seed — the
cycle closes by repeating the seed, not (as part (b) of the claim says)
by the last node having the seed among its successors. -/
theorem cycle_found_trace_shape (program_graph : ParallelProgramGraph) (buchi : BA)
    (initial_memory : Memory) (search_depth fuel : Nat)
    (trc : List (MAction × ProductNode))
    (h : nested_dfs program_graph buchi initial_memory search_depth fuel =
      some (PanicOr.value (LTLVerificationResult.CycleFound trc))) :
    List.Chain' (fun a b =>
      b.2 ∈ (((ProductTransitionSystem.mk program_graph buchi).next_nodes a.2).getD
        []).map (·.2)) trc ∧
    ∃ (k : Nat) (x : MAction × ProductNode),
      trc[k]? = some x ∧ trc.getLast? = some x ∧ k + 1 < trc.length ∧
      (ProductTransitionSystem.mk program_graph buchi).state_is_final x.2 = Bool.true :=
  nested_dfs_go_cycle_shape (ProductTransitionSystem.mk program_graph buchi)
    initial_memory search_depth fuel
    (buchi.get_next_edges buchi.initial_state) [] [] Bool.false trc h

theorem cycle_found_trace_shape_witness :
    nested_dfs pgEx baEx memEx 10 100 =
      some (PanicOr.value (LTLVerificationResult.CycleFound traceEx)) ∧
    (List.Chain' (fun a b =>
      b.2 ∈ (((ProductTransitionSystem.mk pgEx baEx).next_nodes a.2).getD []).map (·.2))
      traceEx ∧
    ∃ (k : Nat) (x : MAction × ProductNode),
      traceEx[k]? = some x ∧ traceEx.getLast? = some x ∧ k + 1 < traceEx.length ∧
      (ProductTransitionSystem.mk pgEx baEx).state_is_final x.2 = Bool.true) :=
  ⟨rfl, cycle_found_trace_shape pgEx baEx memEx 10 100 traceEx rfl⟩

/-- C1 counterexample to part (b): on `pgEx`/`baEx`/`memEx` the nested DFS
returns `traceEx`; the only index before the end holding the same entry as
the last one — the accepting seed starting the cycle portion — is 1, and
that node (which is also the trace's last node) is not among the
successors of the trace's last node. -/
theorem cycle_found_last_successor_counterexample :
    nested_dfs pgEx baEx memEx 10 100 =
      some (PanicOr.value (LTLVerificationResult.CycleFound traceEx)) ∧
    (∀ k < traceEx.length, traceEx[k]? = traceEx.getLast? →
      k + 1 < traceEx.length → k = 1) ∧
    traceEx[1]? = some (MAction.skip, (ParallelConfiguration.mk [Node.node 1] memEx,
      TrappingBAState.normalState (BAState.mk 0 0))) ∧
    traceEx.getLast? = some (MAction.skip, (ParallelConfiguration.mk [Node.node 1] memEx,
      TrappingBAState.normalState (BAState.mk 0 0))) ∧
    (ParallelConfiguration.mk [Node.node 1] memEx,
      TrappingBAState.normalState (BAState.mk 0 0)) ∉
      (((ProductTransitionSystem.mk pgEx baEx).next_nodes
        (ParallelConfiguration.mk [Node.node 1] memEx,
          TrappingBAState.normalState (BAState.mk 0 0))).getD []).map (·.2) := by
  refine ⟨rfl, ?_, rfl, rfl, ?_⟩
  · decide
  · decide
